import Mathlib

/-!
# Verification of the crawl core of `taotao-hufa`

Shallow embedding of the crawl core of the `taotao-hufa` website analyzer
(`src/utils.py`, `src/crawler.py`, `src/main.py`) together with the parts of
its runtime dependencies that the embedded functions call into:

* `urllib.parse.urlsplit` / `urlparse` / `urljoin` / `urldefrag`
  (CPython, `Lib/urllib/parse.py`);
* `urllib.robotparser.RobotFileParser` (CPython, `Lib/urllib/robotparser.py`);
* the `dict(...)` snapshot of `requests`' `CaseInsensitiveDict`
  (`requests/structures.py`).

Python strings are modelled as `List Char`.  Fallible Python code (functions
that can raise `ValueError`) is modelled with `Except (List Char)`.

Modelling notes for the CPython URL parser (stated once; they apply to the
whole development):
* `_checknetloc` (which raises `ValueError` when a non-ASCII netloc is
  NFKC-unstable in a dangerous way) is modelled as a no-op.  CPython's own
  first line of `_checknetloc` returns immediately when the netloc is empty
  or all-ASCII, so the modelling is exact on all-ASCII inputs and a
  deliberate gap outside them: the model is missing this error path for
  non-ASCII netlocs such as `http://℀`, and theorems whose truth depends on
  the absence of parser errors therefore carry an all-ASCII hypothesis.
* `_check_bracketed_host` (the `ipaddress`-based validation of a bracketed
  IPv6/IPvFuture host, CPython >= 3.11) is modelled as a no-op.  It is
  reached only when the netloc contains both `[` and `]`, so the modelling
  is exact on bracket-free inputs and a gap outside them; theorems that
  need the absence of parser errors carry bracket-free hypotheses.  The
  mismatched-bracket `ValueError("Invalid IPv6 URL")`, present in every
  CPython version, is modelled faithfully.
-/

/-- Python `str` is a sequence of characters. -/
abbrev Str := List Char

/-- Convenience: build a `Str` from a Lean string literal. -/
def str (s : String) : Str := s.toList

/-- Decidable equality for `Except`, used to evaluate the fallible URL
functions at concrete inputs. -/
instance {ε α : Type} [DecidableEq ε] [DecidableEq α] : DecidableEq (Except ε α) :=
  fun a b =>
    match a, b with
    | .error x, .error y =>
      if h : x = y then .isTrue (by rw [h]) else .isFalse (by simp [h])
    | .ok x, .ok y =>
      if h : x = y then .isTrue (by rw [h]) else .isFalse (by simp [h])
    | .error _, .ok _ => .isFalse (by simp)
    | .ok _, .error _ => .isFalse (by simp)

/-- ASCII lower-casing of one character, as `str.lower` acts on the ASCII
letters that can occur in a URL scheme. -/
def asciiLower (c : Char) : Char :=
  if 'A' ≤ c ∧ c ≤ 'Z' then Char.ofNat (c.toNat + 32) else c

/-- Python `url[0].isascii() and url[0].isalpha()`: an ASCII letter. -/
def isAsciiAlpha (c : Char) : Bool :=
  ('a' ≤ c ∧ c ≤ 'z') ∨ ('A' ≤ c ∧ c ≤ 'Z')

/-- Membership in CPython's `scheme_chars`
(`ascii_letters + digits + '+-.'`). -/
def isSchemeChar (c : Char) : Bool :=
  isAsciiAlpha c ∨ ('0' ≤ c ∧ c ≤ '9') ∨ c = '+' ∨ c = '-' ∨ c = '.'

/-- A character of `_WHATWG_C0_CONTROL_OR_SPACE` (code points `0x00`–`0x20`). -/
def isC0OrSpace (c : Char) : Bool := c ≤ ' '

/-- A character of `_UNSAFE_URL_BYTES_TO_REMOVE` (`"\t"`, `"\r"`, `"\n"`). -/
def isUnsafeByte (c : Char) : Bool := c = '\t' ∨ c = '\r' ∨ c = '\n'

/-- Python `url.lstrip(_WHATWG_C0_CONTROL_OR_SPACE)` followed by removal of the
unsafe bytes, as `urlsplit` sanitizes its `url` argument. -/
def sanitizeUrl (s : Str) : Str :=
  (s.dropWhile isC0OrSpace).filter (fun c => ¬ isUnsafeByte c)

/-- Python `scheme.strip(_WHATWG_C0_CONTROL_OR_SPACE)` followed by removal of the
unsafe bytes, as `urlsplit` sanitizes its `scheme` argument. -/
def sanitizeScheme (s : Str) : Str :=
  (((s.dropWhile isC0OrSpace).reverse.dropWhile isC0OrSpace).reverse).filter
    (fun c => ¬ isUnsafeByte c)

/-- The stop characters `'/'`, `'?'`, `'#'` that terminate the network
location in `_splitnetloc`. -/
def isNetlocStop (c : Char) : Bool := c = '/' ∨ c = '?' ∨ c = '#'

/-- Result of `urlsplit`: `(scheme, netloc, path, query, fragment)`. -/
structure SplitResult where
  scheme : Str
  netloc : Str
  path : Str
  query : Str
  fragment : Str
deriving DecidableEq

/-- Result of `urlparse`: `(scheme, netloc, path, params, query, fragment)`. -/
structure ParseResult where
  scheme : Str
  netloc : Str
  path : Str
  params : Str
  query : Str
  fragment : Str
deriving DecidableEq

/-- The message of the `ValueError` raised on mismatched IPv6 brackets. -/
def invalidIpv6Msg : Str := str "Invalid IPv6 URL"

/-- The scheme-detection step of `urlsplit`: if the URL starts with
`<scheme>:` where the scheme is nonempty, starts with an ASCII letter and
consists of scheme characters, split it off (lower-cased); otherwise the
default scheme `ds` applies and the URL is unchanged. -/
def splitSchemePart (ds : Str) (url : Str) : Str × Str :=
  let pre := url.takeWhile (fun c => c ≠ ':')
  match url.dropWhile (fun c => c ≠ ':') with
  | [] => (ds, url)
  | _ :: rest =>
    if pre ≠ [] ∧ isAsciiAlpha (pre.headD 'a') ∧ pre.all isSchemeChar
    then (pre.map asciiLower, rest)
    else (ds, url)

/-- The fragment and query splitting tail of `urlsplit` (with
`allow_fragments=True`, the only mode the program uses). -/
def splitFragmentQuery (scheme netloc : Str) (url : Str) : SplitResult :=
  let (url1, fragment) :=
    if '#' ∈ url then
      (url.takeWhile (fun c => c ≠ '#'), (url.dropWhile (fun c => c ≠ '#')).tail)
    else (url, [])
  let (path, query) :=
    if '?' ∈ url1 then
      (url1.takeWhile (fun c => c ≠ '?'), (url1.dropWhile (fun c => c ≠ '?')).tail)
    else (url1, [])
  ⟨scheme, netloc, path, query, fragment⟩

/-- The body of `urlsplit` after the argument sanitization: scheme
detection, authority extraction with the bracket check, then the
fragment/query splits.  The failure modelled is the
`ValueError("Invalid IPv6 URL")` on mismatched square brackets in the
network location; the `_checknetloc` NFKC test and the bracketed-host
validation are the modelling no-ops described in the file header, exact
only for netlocs that are all-ASCII and contain no bracket pair. -/
def urlsplitCore (ds : Str) (url : Str) : Except Str SplitResult :=
  let (scheme, url2) := splitSchemePart ds url
  match url2 with
  | '/' :: '/' :: rest =>
    let netloc := rest.takeWhile (fun c => ¬ isNetlocStop c)
    let url3 := rest.dropWhile (fun c => ¬ isNetlocStop c)
    if ('[' ∈ netloc ∧ ']' ∉ netloc) ∨ (']' ∈ netloc ∧ '[' ∉ netloc)
    then .error invalidIpv6Msg
    else .ok (splitFragmentQuery scheme netloc url3)
  | _ => .ok (splitFragmentQuery scheme [] url2)

/-- CPython `urllib.parse.urlsplit url scheme` (the `scheme` argument is the
default used when the URL carries none). -/
def urlsplitE (ds : Str) (url0 : Str) : Except Str SplitResult :=
  urlsplitCore (sanitizeScheme ds) (sanitizeUrl url0)

/-- CPython `uses_params`. -/
def usesParams : List Str :=
  [str "", str "ftp", str "hdl", str "prospero", str "http", str "imap",
   str "https", str "shttp", str "rtsp", str "rtspu", str "sip", str "sips",
   str "mms", str "sftp", str "tel"]

/-- CPython `uses_relative`. -/
def usesRelative : List Str :=
  [str "", str "ftp", str "http", str "gopher", str "nntp", str "imap",
   str "wais", str "file", str "https", str "shttp", str "mms",
   str "prospero", str "rtsp", str "rtspu", str "sftp", str "svn",
   str "svn+ssh", str "ws", str "wss"]

/-- CPython `uses_netloc`. -/
def usesNetloc : List Str :=
  [str "", str "ftp", str "http", str "gopher", str "nntp", str "telnet",
   str "imap", str "wais", str "file", str "mms", str "https", str "shttp",
   str "snews", str "prospero", str "rtsp", str "rtspu", str "rsync",
   str "svn", str "svn+ssh", str "sftp", str "nfs", str "git",
   str "git+ssh", str "ws", str "wss", str "itms-services"]

/-- CPython `_splitparams`: split `;params` off the last path segment.  Only
called when `';' in url`, which together with the branch structure keeps the
index arithmetic of the original in the found case. -/
def splitparams (url : Str) : Str × Str :=
  if '/' ∈ url then
    let suf := (url.reverse.takeWhile (fun c => c ≠ '/')).reverse
    let pre := url.take (url.length - suf.length)
    if ';' ∈ suf then
      (pre ++ suf.takeWhile (fun c => c ≠ ';'),
       (suf.dropWhile (fun c => c ≠ ';')).tail)
    else (url, [])
  else
    (url.takeWhile (fun c => c ≠ ';'), (url.dropWhile (fun c => c ≠ ';')).tail)

/-- The params step of `urlparse` on a successful split. -/
def paramsStep (r : SplitResult) : ParseResult :=
  if r.scheme ∈ usesParams ∧ ';' ∈ r.path then
    let (p, par) := splitparams r.path
    ⟨r.scheme, r.netloc, p, par, r.query, r.fragment⟩
  else
    ⟨r.scheme, r.netloc, r.path, [], r.query, r.fragment⟩

/-- CPython `urllib.parse.urlparse url scheme`. -/
def urlparseE (ds : Str) (u : Str) : Except Str ParseResult :=
  match urlsplitE ds u with
  | .error e => .error e
  | .ok r => .ok (paramsStep r)

/-- CPython `urlunsplit` (3.11 semantics: the authority marker is also kept
for a known scheme whose path does not already start with `//`). -/
def urlunsplit (scheme netloc url query fragment : Str) : Str :=
  let url1 :=
    if netloc ≠ [] ∨ (scheme ≠ [] ∧ scheme ∈ usesNetloc ∧ url.take 2 ≠ ['/', '/']) then
      let u := if url ≠ [] ∧ url.take 1 ≠ ['/'] then '/' :: url else url
      '/' :: '/' :: (netloc ++ u)
    else url
  let url2 := if scheme ≠ [] then scheme ++ ':' :: url1 else url1
  let url3 := if query ≠ [] then url2 ++ '?' :: query else url2
  if fragment ≠ [] then url3 ++ '#' :: fragment else url3

/-- CPython `urlunparse`. -/
def urlunparse (scheme netloc url params query fragment : Str) : Str :=
  let url1 := if params ≠ [] then url ++ ';' :: params else url
  urlunsplit scheme netloc url1 query fragment

/-- CPython `urldefrag`: strip the fragment (returning only the defragged
URL, the part `normalize_url` uses).  Parses (and hence can raise) only when
the URL contains `'#'`. -/
def urldefragE (url : Str) : Except Str Str :=
  if '#' ∈ url then
    match urlparseE [] url with
    | .error e => .error e
    | .ok r => .ok (urlunparse r.scheme r.netloc r.path r.params r.query [])
  else
    .ok url

/-- Python `str.split(sep)` for a one-character separator. -/
def pySplit (sep : Char) : Str → List Str
  | [] => [[]]
  | c :: t =>
    match pySplit sep t with
    | [] => [[]]
    | h :: r => if c = sep then [] :: h :: r else (c :: h) :: r

/-- Python `sep.join(parts)` for a one-character separator. -/
def pyJoin (sep : Char) : List Str → Str
  | [] => []
  | [p] => p
  | p :: ps => p ++ sep :: pyJoin sep ps

/-- Python `segments[1:-1] = filter(None, segments[1:-1])`: drop empty segments,
keeping the first and the last. -/
def filterMiddle : List Str → List Str
  | [] => []
  | [x] => [x]
  | x :: xs => x :: filterMiddleTail xs
where
  filterMiddleTail : List Str → List Str
  | [] => []
  | [x] => [x]
  | x :: xs => if x = [] then filterMiddleTail xs else x :: filterMiddleTail xs

/-- The `'..'`/`'.'` resolution loop of `urljoin` (`pop` on an empty list is
`pass`, i.e. the accumulator stays empty). -/
def resolveSegments (segs : List Str) : List Str :=
  segs.foldl
    (fun acc seg =>
      if seg = str ".." then acc.dropLast
      else if seg = str "." then acc
      else acc ++ [seg])
    []

/-- The relative-path merge of `urljoin` (the tail of the function, from
`base_parts = bpath.split('/')` on), reached when the URL has no usable
authority and a nonempty path or params. -/
def joinPaths (b r : ParseResult) (netloc : Str) : Str :=
  let baseParts0 := pySplit '/' b.path
  let baseParts :=
    if baseParts0.getLastD [] ≠ [] then baseParts0.dropLast else baseParts0
  let segments :=
    if r.path.take 1 = ['/'] then pySplit '/' r.path
    else filterMiddle (baseParts ++ pySplit '/' r.path)
  let resolved0 := resolveSegments segments
  let resolved :=
    if segments.getLastD [] = str ".." ∨ segments.getLastD [] = str "." then
      resolved0 ++ [[]]
    else resolved0
  let joined := pyJoin '/' resolved
  let path := if joined = [] then ['/'] else joined
  urlunparse r.scheme netloc path r.params r.query r.fragment

/-- CPython `urllib.parse.urljoin`. -/
def urljoinE (base url : Str) : Except Str Str :=
  if base = [] then .ok url
  else if url = [] then .ok base
  else
    match urlparseE [] base with
    | .error e => .error e
    | .ok b =>
      match urlparseE b.scheme url with
      | .error e => .error e
      | .ok r =>
        if r.scheme ≠ b.scheme ∨ r.scheme ∉ usesRelative then
          .ok url
        else if r.scheme ∈ usesNetloc ∧ r.netloc ≠ [] then
          .ok (urlunparse r.scheme r.netloc r.path r.params r.query r.fragment)
        else
          let netloc := if r.scheme ∈ usesNetloc then b.netloc else r.netloc
          if r.path = [] ∧ r.params = [] then
            let query := if r.query = [] then b.query else r.query
            .ok (urlunparse r.scheme netloc b.path b.params query r.fragment)
          else
            .ok (joinPaths b r netloc)

/-- Python `url.rstrip("/")`: remove every trailing `'/'`. -/
def pyRstripSlash (s : Str) : Str :=
  (s.reverse.dropWhile (fun c => c = '/')).reverse

/-- From `src/utils.py`, resolution step of `normalize_url`: `if base_url:
url = urljoin(base_url, url)`. -/
def resolveBase (url base_url : Str) : Except Str Str :=
  if base_url ≠ [] then urljoinE base_url url else .ok url

/-- The trailing-slash branch condition of `normalize_url`:
`parsed.path and parsed.path != "/" and parsed.path.endswith("/")`. -/
def stripCond (p : ParseResult) : Prop :=
  p.path ≠ [] ∧ p.path ≠ ['/'] ∧ p.path.getLast? = some '/'

instance (p : ParseResult) : Decidable (stripCond p) := by
  unfold stripCond; infer_instance

/-- From `src/utils.py`, `normalize_url(url, base_url="")`: resolve against the
base when one is given, strip the fragment, then strip trailing slashes from
the whole URL when the parsed path ends in `'/'` and is not exactly `"/"`.
Exceptions raised by the URL parser propagate (there is no `try` in the
source). -/
def normalize_url (url : Str) (base_url : Str) : Except Str Str :=
  match resolveBase url base_url with
  | .error e => .error e
  | .ok u1 =>
    match urldefragE u1 with
    | .error e => .error e
    | .ok u2 =>
      match urlparseE [] u2 with
      | .error e => .error e
      | .ok parsed =>
        if stripCond parsed then .ok (pyRstripSlash u2) else .ok u2

/-- From `src/utils.py`, `is_same_domain(url, base_url)`: netloc equality, with
any parse exception caught and turned into `False`. -/
def is_same_domain (url base_url : Str) : Bool :=
  match urlparseE [] url, urlparseE [] base_url with
  | .ok a, .ok b => a.netloc = b.netloc
  | _, _ => false

/-! ## The robots policy gate (`urllib.robotparser` + `src/crawler.py`) -/

/-- State of CPython's `RobotFileParser` that `can_fetch` inspects.  The
parsed rule entries are abstracted into `lines` (the raw rule lines kept by
`parse`); their evaluation is a parameter of `can_fetch` below, since no
claim depends on rule matching itself. -/
structure RobotFileParser where
  disallow_all : Bool
  allow_all : Bool
  /-- `last_checked`: `0` until `modified()` runs (which `parse` calls). -/
  last_checked : Nat
  lines : List Str
deriving DecidableEq

/-- A fresh `RobotFileParser()`. -/
def RobotFileParser.init : RobotFileParser :=
  ⟨false, false, 0, []⟩

/-- The possible outcomes of `urlopen` on `{base}/robots.txt` inside
`RobotFileParser.read`. -/
inductive RobotsFetchOutcome where
  /-- The fetch succeeded and produced these lines. -/
  | ok (ls : List Str)
  /-- `urlopen` raised `HTTPError` with this status code. -/
  | httpError (code : Nat)
  /-- `urlopen` raised a non-HTTP exception (`URLError`: DNS failure,
  connection refused, timeout, ...). -/
  | raised (msg : Str)

/-- CPython `RobotFileParser.read`: an `HTTPError` is absorbed (401/403 set
`disallow_all`, other 4xx set `allow_all`), a successful fetch is parsed
(`parse` calls `modified()`, setting `last_checked`), and any other
exception propagates to the caller. -/
def RobotFileParser.read (rp : RobotFileParser) (o : RobotsFetchOutcome) :
    Except Str RobotFileParser :=
  match o with
  | .raised msg => .error msg
  | .httpError code =>
    if code = 401 ∨ code = 403 then .ok { rp with disallow_all := true }
    else if 400 ≤ code ∧ code < 500 then .ok { rp with allow_all := true }
    else .ok rp
  | .ok ls => .ok { rp with last_checked := 1, lines := ls }

/-- CPython `RobotFileParser.can_fetch`: the guard sequence before rule
evaluation, with the evaluation of the parsed entries abstracted as `eval`
(given the kept lines, the user agent and the URL). -/
def RobotFileParser.can_fetch (rp : RobotFileParser)
    (eval : List Str → Str → Str → Bool) (ua url : Str) : Bool :=
  if rp.disallow_all then false
  else if rp.allow_all then true
  else if rp.last_checked = 0 then false
  else eval rp.lines ua url

/-- From `src/crawler.py`, `Crawler._load_robots`: `read` is attempted and any
exception is caught (logging "robots.txt 加载失败，将爬取所有页面"), leaving
the parser exactly as it was before the call. -/
def load_robots (o : RobotsFetchOutcome) : RobotFileParser :=
  match RobotFileParser.init.read o with
  | .ok rp => rp
  | .error _ => RobotFileParser.init

/-- From `src/crawler.py`, `Crawler.USER_AGENT`. -/
def USER_AGENT : Str := str "TaoTaoHuFa/1.0"

/-- From `src/crawler.py`, `Crawler._can_fetch`: delegates to
`robots_parser.can_fetch` under the fixed user agent; the `except` branch
returning `True` is unreachable in this model because the modelled
`can_fetch` is total. -/
def crawler_can_fetch (rp : RobotFileParser)
    (eval : List Str → Str → Str → Bool) (url : Str) : Bool :=
  rp.can_fetch eval USER_AGENT url

/-! ## The crawl scheduler (`src/crawler.py` `Crawler.crawl`) -/

/-- The slice of `PageData` (`src/models.py`) that the crawl loop and the
zero-page condition inspect: the transport `error` message, the status code
(0 on transport failure) and the discovered same-site links. -/
structure Page where
  status_code : Nat
  error : Str
  internal_links : List Str
deriving DecidableEq

/-- Parameters of one crawl run.  `canFetch` is the robots gate
(`Crawler._can_fetch`), `crawlable` the link-admission predicate
(`is_crawlable_url`), and `fetch` the outcome of `Crawler._fetch_page` for
each URL — the loop's behaviour is a function of these, so the claims about
the loop are proved for every instantiation. -/
structure CrawlCfg where
  canFetch : Str → Bool
  crawlable : Str → Bool
  fetch : Str → Page
  maxPages : Nat

/-- Crawl state: the frontier `queue` (a `deque` popped at the left and
appended at the right), the `visited` set (modelled as its insertion-ordered
underlying list; elements are only ever added, and only when absent) and the
`pages` result dict (insertion-ordered association list). -/
structure CrawlState where
  queue : List Str
  visited : List Str
  pages : List (Str × Page)
deriving DecidableEq

/-- Python `self.pages[url] = page`: update in place when the key exists
(dicts preserve insertion position), append otherwise. -/
def dictSet (d : List (Str × Page)) (k : Str) (v : Page) : List (Str × Page) :=
  if k ∈ d.map Prod.fst then
    d.map (fun e => if e.1 = k then (k, v) else e)
  else d ++ [(k, v)]

/-- The link-discovery loop at the bottom of `Crawler.crawl`: for each
internal link in order, if it is unvisited, crawlable, and the visited cap
`max_pages * 2` has room, mark it visited and enqueue it. -/
def addLinks (cfg : CrawlCfg) :
    List Str → List Str → List Str → List Str × List Str
  | [], visited, queue => (visited, queue)
  | l :: ls, visited, queue =>
    if l ∉ visited ∧ cfg.crawlable l ∧ visited.length < cfg.maxPages * 2 then
      addLinks cfg ls (visited ++ [l]) (queue ++ [l])
    else
      addLinks cfg ls visited queue

/-- One iteration of the `while` body of `Crawler.crawl` (assuming the loop
condition already held): pop the frontier head; if robots denies it, skip;
otherwise fetch, record the page, and fold its internal links into the
frontier. -/
def crawlStep (cfg : CrawlCfg) (s : CrawlState) : CrawlState :=
  match s.queue with
  | [] => s
  | url :: rest =>
    if ¬ cfg.canFetch url then
      ⟨rest, s.visited, s.pages⟩
    else
      let page := cfg.fetch url
      let pages := dictSet s.pages url page
      let (visited, queue) := addLinks cfg page.internal_links s.visited rest
      ⟨queue, visited, pages⟩

/-- The loop condition `queue and len(self.pages) < self.max_pages`. -/
def crawlCond (cfg : CrawlCfg) (s : CrawlState) : Prop :=
  s.queue ≠ [] ∧ s.pages.length < cfg.maxPages

instance (cfg : CrawlCfg) (s : CrawlState) : Decidable (crawlCond cfg s) := by
  unfold crawlCond; infer_instance

/-- The crawl loop, indexed by fuel: `crawlRun cfg n s` runs up to `n`
iterations of the loop from state `s`, stopping early when the loop
condition fails.  Every intermediate state of the Python loop is
`crawlRun cfg n (crawlInit base)` for some `n`, so safety claims quantify
over the fuel. -/
def crawlRun (cfg : CrawlCfg) : Nat → CrawlState → CrawlState
  | 0, s => s
  | n + 1, s =>
    if crawlCond cfg s then crawlRun cfg n (crawlStep cfg s) else s

/-- Python `base_url.rstrip("/")` performed by `Crawler.__init__`. -/
def rstripBase (base : Str) : Str := pyRstripSlash base

/-- The state at the top of `Crawler.crawl`: frontier seeded with the
(rstripped) base URL, which is also marked visited; no page recorded. -/
def crawlInit (base : Str) : CrawlState :=
  ⟨[rstripBase base], [rstripBase base], []⟩

/-- From `src/main.py`, `run_analysis`: the only condition that aborts the whole
run is `if not pages: sys.exit(1)` — "nothing crawled". -/
def nothing_crawled (pages : List (Str × Page)) : Bool :=
  pages.isEmpty

/-! ## Response headers on a `PageRecord` (`src/crawler.py` `_fetch_page`) -/

/-- One insertion into `requests`' `CaseInsensitiveDict`: the backing store
maps the lower-cased key to the `(original key, value)` pair, keeping the
insertion position on overwrite (`dict` semantics of `_store`). -/
def cidInsert (store : List (Str × (Str × Str))) (k v : Str) :
    List (Str × (Str × Str)) :=
  if k.map asciiLower ∈ store.map Prod.fst then
    store.map (fun e => if e.1 = k.map asciiLower then (e.1, (k, v)) else e)
  else store ++ [(k.map asciiLower, (k, v))]

/-- The `CaseInsensitiveDict` of response headers built from the raw header
pairs in arrival order (later duplicates overwrite, last wins). -/
def buildCID (raw : List (Str × Str)) : List (Str × (Str × Str)) :=
  raw.foldl (fun st e => cidInsert st e.1 e.2) []

/-- The store `page.headers = dict(resp.headers)` in `Crawler._fetch_page`: iterating
a `CaseInsensitiveDict` yields the original-cased keys with their values,
and `dict(...)` snapshots exactly those pairs. -/
def fetchHeaders (raw : List (Str × Str)) : List (Str × Str) :=
  (buildCID raw).map Prod.snd

/-- Python `d.get(k)` / `d[k]` on a plain `dict`: exact-key lookup. -/
def pyDictGet (d : List (Str × Str)) (k : Str) : Option Str :=
  (d.find? (fun e => e.1 = k)).map Prod.snd

/-- Lookup `CaseInsensitiveDict.__getitem__`: lookup through the lower-cased key. -/
def cidGet (store : List (Str × (Str × Str))) (k : Str) : Option Str :=
  ((store.find? (fun e => e.1 = k.map asciiLower)).map Prod.snd).map Prod.snd

/-! ## The word-count extraction (`src/crawler.py` `_parse_html`) -/

/-- The soup produced by parsing the page markup: text nodes and elements
with a tag name and children, the shape `BeautifulSoup` exposes to
`decompose`/`get_text`. -/
inductive HtmlNode where
  | text (s : Str)
  | elem (tag : Str) (children : List HtmlNode)

/-- Tags of `soup(["script", "style", "nav", "header", "footer"])` followed by
`tag.decompose()`: drop every element with one of these tags, recursively. -/
def boilerplateTags : List Str :=
  [str "script", str "style", str "nav", str "header", str "footer"]

mutual

/-- Remove decomposed (boilerplate) elements from one node. -/
def stripNode : HtmlNode → Option HtmlNode
  | .text s => some (.text s)
  | .elem t cs => if t ∈ boilerplateTags then none else some (.elem t (stripChildren cs))

/-- Remove decomposed (boilerplate) elements from a node list. -/
def stripChildren : List HtmlNode → List HtmlNode
  | [] => []
  | n :: ns =>
    match stripNode n with
    | some n' => n' :: stripChildren ns
    | none => stripChildren ns

end

mutual

/-- The text-node strings of one node, in document order
(`Tag._all_strings`). -/
def nodeStrings : HtmlNode → List Str
  | .text s => [s]
  | .elem _ cs => childStrings cs

/-- The text-node strings of a node list, in document order. -/
def childStrings : List HtmlNode → List Str
  | [] => []
  | n :: ns => nodeStrings n ++ childStrings ns

end

/-- Python `str.isspace` characters that occur in HTML text (ASCII
whitespace). -/
def isPySpace (c : Char) : Bool :=
  c = ' ' ∨ c = '\t' ∨ c = '\n' ∨ c = '\r' ∨ c = '\x0b' ∨ c = '\x0c'

/-- Python `str.strip()`. -/
def pyStrip (s : Str) : Str :=
  ((s.dropWhile isPySpace).reverse.dropWhile isPySpace).reverse

/-- Python `soup.get_text(separator=" ", strip=True)`: each text node is stripped,
empty results are dropped, and the rest are joined with a single space. -/
def getText (doc : List HtmlNode) : Str :=
  pyJoin ' ' (((childStrings doc).map pyStrip).filter (fun s => s ≠ []))

/-- Membership in the character class `[一-鿿]` (the CJK Unified
Ideographs block). -/
def isCJK (c : Char) : Bool :=
  0x4e00 ≤ c.toNat ∧ c.toNat ≤ 0x9fff

/-- Python `len(re.findall(r'[一-鿿]', text))`: one match per character in
the class. -/
def chinese_chars (text : Str) : Nat :=
  text.countP isCJK

/-- Membership in the character class `[a-zA-Z]`. -/
def isLatinLetter (c : Char) : Bool :=
  ('a' ≤ c ∧ c ≤ 'z') ∨ ('A' ≤ c ∧ c ≤ 'Z')

/-- Python `len(re.findall(r'[a-zA-Z]+', text))`: the regex scan counts one match
each time a Latin letter is reached while not already inside a match
(greedy `+` extends the match over the whole letter run). -/
def latinMatches (inRun : Bool) : Str → Nat
  | [] => 0
  | c :: t =>
    (if isLatinLetter c ∧ ¬ inRun then 1 else 0) + latinMatches (isLatinLetter c) t

/-- Function `english_words` of `_parse_html`. -/
def english_words (text : Str) : Nat :=
  latinMatches false text

/-- The word-count computation of `_parse_html` on the decomposed soup:
`chinese_chars + english_words` of the visible text. -/
def page_word_count (doc : List HtmlNode) : Nat :=
  let text := getText (stripChildren doc)
  chinese_chars text + english_words text

/-- Specification-side splitter: cut the text at every character for which
`sep` holds, keeping the (possibly empty) groups between the cuts. -/
def splitRuns (sep : Char → Bool) : Str → List Str
  | [] => [[]]
  | c :: t =>
    match splitRuns sep t with
    | [] => [[]]
    | h :: r => if sep c then [] :: h :: r else (c :: h) :: r

/-- Specification-side counterpart of `english_words`, written from the
spec's words: the number of maximal Latin-alphabet runs, i.e. the nonempty
groups left when the text is split at every non-Latin character. -/
def maximalLatinRuns (text : Str) : Nat :=
  (splitRuns (fun c => ¬ isLatinLetter c) text).countP (fun g => ¬ g.isEmpty)

/-! ## Concrete instances used by the claim theorems -/

/-- The soup of the word-count scenario of the spec: an HTML body containing
exactly `<p>你好世界 hello world</p>`. -/
def scenarioDoc : List HtmlNode :=
  [.elem (str "html") [.elem (str "body")
    [.elem (str "p") [.text (str "你好世界 hello world")]]]]

/-- A transport-failed fetch result: `requests` raised, so `_fetch_page`
returned a record with `status_code = 0`, the error message set and no
extractable links. -/
def seedFailPage : Page := ⟨0, str "connection refused", []⟩

/-- A crawl world in which every fetch transport-fails (in particular the
seed has no extractable links) and robots allows everything. -/
def seedFailCfg : CrawlCfg :=
  ⟨fun _ => true, fun _ => true, fun _ => seedFailPage, 50⟩

/-- Concrete seed URL used by the counterexample and witness runs. -/
def seedUrl : Str := str "http://a.com"

/-- A successful seed page with two same-site links, used by the witnesses
of the crawl invariants. -/
def demoPage : Page := ⟨200, [], [str "http://a.com/b", str "http://a.com/c"]⟩

/-- A small concrete crawl configuration (budget 2) used by the witnesses. -/
def demoCfg : CrawlCfg :=
  ⟨fun _ => true, fun _ => true,
   fun u => if u = seedUrl then demoPage else ⟨200, [], []⟩, 2⟩

/-- Response headers of the case-insensitivity counterexample. -/
def ctHeaders : List (Str × Str) := [(str "Content-Type", str "text/html")]

/-- Specification-side host of a network location: the netloc with any
userinfo prefix (through the last `'@'`) and any `':'`-introduced port
suffix removed — the "host component" in the claim's sense. -/
def hostOf (netloc : Str) : Str :=
  ((netloc.reverse.takeWhile (fun c => c ≠ '@')).reverse).takeWhile
    (fun c => c ≠ ':')

/-- Whether a string begins with a Latin letter (used to relate the regex
scan to the run splitting). -/
def headIsLatin : Str → Bool
  | [] => false
  | c :: _ => isLatinLetter c

/-! ## General lemmas on the string primitives -/

theorem head_dropWhile_false {p : Char → Bool} :
    ∀ (l : Str) (c : Char), (l.dropWhile p).head? = some c → p c = false := by
  intro l
  induction l with
  | nil => intro c h; simp [List.dropWhile] at h
  | cons a t ih =>
    intro c h
    by_cases hp : p a
    · rw [List.dropWhile_cons] at h
      simp only [hp, if_true] at h
      exact ih c h
    · rw [List.dropWhile_cons] at h
      simp only [hp, if_false] at h
      simp only [List.head?] at h
      cases h
      exact Bool.of_not_eq_true hp

theorem dropWhile_eq_self_of_head {p : Char → Bool} {l : Str}
    (h : ∀ c, l.head? = some c → p c = false) : l.dropWhile p = l := by
  cases l with
  | nil => rfl
  | cons a t =>
    rw [List.dropWhile_cons, if_neg]
    simp [h a rfl]

theorem pyRstripSlash_getLast (s : Str) :
    (pyRstripSlash s).getLast? ≠ some '/' := by
  unfold pyRstripSlash
  rw [List.getLast?_reverse]
  intro h
  have := head_dropWhile_false (p := fun c => c = '/') s.reverse '/' h
  simp at this

theorem pyRstripSlash_of_getLast {s : Str} (h : s.getLast? ≠ some '/') :
    pyRstripSlash s = s := by
  unfold pyRstripSlash
  rw [dropWhile_eq_self_of_head, List.reverse_reverse]
  intro c hc
  rw [← List.getLast?_reverse, List.reverse_reverse] at hc
  simp only [decide_eq_false_iff_not]
  intro hcon
  exact h (hcon ▸ hc)

theorem pyRstripSlash_idem (s : Str) :
    pyRstripSlash (pyRstripSlash s) = pyRstripSlash s :=
  pyRstripSlash_of_getLast (pyRstripSlash_getLast s)

theorem rstrip_append_replicate (s : Str) :
    ∃ k, s = pyRstripSlash s ++ List.replicate k '/' := by
  refine ⟨(s.reverse.takeWhile (fun c => c = '/')).length, ?_⟩
  have htk : s.reverse.takeWhile (fun c => c = '/') =
      List.replicate (s.reverse.takeWhile (fun c => c = '/')).length '/' := by
    apply List.eq_replicate_of_mem
    intro b hb
    have := List.mem_takeWhile_imp hb
    simpa using this
  calc s = s.reverse.reverse := (List.reverse_reverse s).symm
    _ = ((s.reverse.takeWhile (fun c => c = '/')) ++
          (s.reverse.dropWhile (fun c => c = '/'))).reverse := by
          rw [List.takeWhile_append_dropWhile]
    _ = pyRstripSlash s ++ (s.reverse.takeWhile (fun c => c = '/')).reverse := by
          rw [List.reverse_append]; rfl
    _ = _ := by
          conv_lhs => rw [htk]
          rw [List.reverse_replicate]

theorem mem_pyRstripSlash {c : Char} {s : Str} (h : c ∈ pyRstripSlash s) :
    c ∈ s := by
  unfold pyRstripSlash at h
  rw [List.mem_reverse] at h
  have := (List.dropWhile_sublist (l := s.reverse) (fun c => c = '/')).subset h
  rwa [List.mem_reverse] at this

/-! ## C6: same-site membership -/

/-- C6 (amended): `is_same_domain url base_url` is true iff both URLs parse
and their full `netloc` components (host together with any port and
userinfo) are equal as exact strings; any parse failure yields `false`.
Since the netloc includes the port, two URLs with the same host but
different ports are *not* same-site — contrary to the claim's
port-agnostic reading. -/
theorem is_same_domain_netloc_iff (u b : Str) :
    (∀ pu pb, urlparseE [] u = .ok pu → urlparseE [] b = .ok pb →
      (is_same_domain u b = true ↔ pu.netloc = pb.netloc)) ∧
    (∀ e, urlparseE [] u = .error e → is_same_domain u b = false) ∧
    (∀ e, urlparseE [] b = .error e → is_same_domain u b = false) := by
  refine ⟨?_, ?_, ?_⟩
  · intro pu pb hu hb
    unfold is_same_domain
    rw [hu, hb]
    simp
  · intro e hu
    unfold is_same_domain
    rw [hu]
  · intro e hb
    unfold is_same_domain
    rw [hb]
    cases urlparseE [] u <;> rfl

/-- C6 witness: the characterization applied at two same-host URLs that
differ only in scheme (same-scheme-free, equal netlocs). -/
theorem is_same_domain_netloc_iff_witness :
    is_same_domain (str "http://h.com/a") (str "https://h.com/b") = true ↔
      (ParseResult.mk (str "http") (str "h.com") (str "/a") [] [] []).netloc =
      (ParseResult.mk (str "https") (str "h.com") (str "/b") [] [] []).netloc :=
  (is_same_domain_netloc_iff (str "http://h.com/a") (str "https://h.com/b")).1
    _ _ rfl rfl

/-- C6 counterexample: `https://a.com:8080/x` and `https://a.com/` have the
same host component `a.com` (port-stripped), yet `is_same_domain` returns
`false`, refuting the claim's "same host, different ports are same-site". -/
theorem is_same_domain_port_counterexample :
    (urlparseE [] (str "https://a.com:8080/x")).toOption.map
        (fun p => hostOf p.netloc) = some (str "a.com") ∧
    (urlparseE [] (str "https://a.com/")).toOption.map
        (fun p => hostOf p.netloc) = some (str "a.com") ∧
    is_same_domain (str "https://a.com:8080/x") (str "https://a.com/") = false := by
  refine ⟨by decide, by decide, by decide⟩



theorem urlsplitCore_error {ds x : Str} {e : Str}
    (h : urlsplitCore ds x = .error e) : e = invalidIpv6Msg := by
  unfold urlsplitCore at h
  split at h
  split at h
  · dsimp only at h
    split at h
    · cases h; rfl
    · cases h
  · cases h

theorem urlsplitE_error {ds x e : Str} (h : urlsplitE ds x = .error e) :
    e = invalidIpv6Msg := urlsplitCore_error h

theorem urlparseE_error {ds x e : Str} (h : urlparseE ds x = .error e) :
    e = invalidIpv6Msg := by
  unfold urlparseE at h
  split at h
  · rename_i he
    cases h
    exact urlsplitE_error he
  · cases h

theorem urldefragE_error {x e : Str} (h : urldefragE x = .error e) :
    e = invalidIpv6Msg := by
  unfold urldefragE at h
  split at h
  · split at h
    · rename_i he
      cases h
      exact urlparseE_error he
    · cases h
  · cases h

theorem urljoinE_error {b x e : Str} (h : urljoinE b x = .error e) :
    e = invalidIpv6Msg := by
  unfold urljoinE at h
  split at h
  · cases h
  · split at h
    · cases h
    · split at h
      · rename_i he
        cases h
        exact urlparseE_error he
      · split at h
        · rename_i he
          cases h
          exact urlparseE_error he
        · dsimp only at h
          repeat' split at h
          all_goals simp at h

theorem resolveBase_error {u b e : Str} (h : resolveBase u b = .error e) :
    e = invalidIpv6Msg := by
  unfold resolveBase at h
  split at h
  · exact urljoinE_error h
  · cases h

theorem normalize_url_error {u b e : Str} (h : normalize_url u b = .error e) :
    e = invalidIpv6Msg := by
  unfold normalize_url at h
  split at h
  · rename_i he
    cases h
    exact resolveBase_error he
  · split at h
    · rename_i he
      cases h
      exact urldefragE_error he
    · split at h
      · rename_i he
        cases h
        exact urlparseE_error he
      · split at h <;> cases h

/-! ## C7: trailing-slash stripping -/

/-- C7 counterexample: a resolved path ending in two slashes loses *both*
(`url.rstrip("/")` removes every trailing slash), where the claim predicts
that all but one are kept (i.e. a result of `http://a.com/x/`). -/
theorem normalize_url_multislash_counterexample :
    normalize_url (str "http://a.com/x//") (str "http://a.com") =
      .ok (str "http://a.com/x") ∧
    str "http://a.com/x" ≠ str "http://a.com/x/" := by
  exact ⟨by decide, by decide⟩

/-- C7 (amended): when the parsed path of the resolved, defragged URL ends
with `'/'` and is not exactly `"/"`, `normalize_url` strips **all** trailing
slashes of the URL string (not exactly one): the result never ends in `'/'`.
A URL whose path is exactly `"/"` is returned unchanged. -/
theorem normalize_url_strips_all_trailing_slashes
    (u b R D : Str) (P : ParseResult)
    (h1 : resolveBase u b = .ok R) (h2 : urldefragE R = .ok D)
    (h3 : urlparseE [] D = .ok P) :
    (stripCond P →
      normalize_url u b = .ok (pyRstripSlash D) ∧
      (pyRstripSlash D).getLast? ≠ some '/') ∧
    (P.path = ['/'] → normalize_url u b = .ok D) := by
  constructor
  · intro hc
    refine ⟨?_, pyRstripSlash_getLast D⟩
    simp only [normalize_url, h1, h2, h3]
    rw [if_pos hc]
  · intro hp
    simp only [normalize_url, h1, h2, h3]
    rw [if_neg]
    intro hcon
    exact hcon.2.1 hp

/-- C7 witness: the amended statement applied to the double-slash input and
to a bare root path. -/
theorem normalize_url_strips_all_trailing_slashes_witness :
    (normalize_url (str "http://a.com/x//") (str "http://a.com") =
        .ok (pyRstripSlash (str "http://a.com/x//")) ∧
      (pyRstripSlash (str "http://a.com/x//")).getLast? ≠ some '/') ∧
    normalize_url (str "http://a.com/") [] = .ok (str "http://a.com/") := by
  constructor
  · exact (normalize_url_strips_all_trailing_slashes
      (str "http://a.com/x//") (str "http://a.com") (str "http://a.com/x//")
      (str "http://a.com/x//")
      ⟨str "http", str "a.com", str "/x//", [], [], []⟩
      (by decide) (by decide) (by decide)).1 (by decide)
  · exact (normalize_url_strips_all_trailing_slashes
      (str "http://a.com/") [] (str "http://a.com/") (str "http://a.com/")
      ⟨str "http", str "a.com", str "/", [], [], []⟩
      (by decide) (by decide) (by decide)).2 (by decide)

/-- C8 counterexample: `normalize_url` is not total — it propagates the URL
parser's `ValueError("Invalid IPv6 URL")`, e.g. on the input `http://[`. -/
theorem normalize_url_raises_counterexample :
    normalize_url (str "http://[") [] = .error invalidIpv6Msg := by decide

/-! ## Crawl loop lemmas -/

theorem crawlRun_empty_queue (cfg : CrawlCfg) (n : Nat) (s : CrawlState)
    (h : s.queue = []) : crawlRun cfg n s = s := by
  cases n with
  | zero => rfl
  | succ m =>
    unfold crawlRun
    rw [if_neg]
    intro hc
    exact hc.1 h

theorem crawlRun_stable (cfg : CrawlCfg) (n : Nat) (s : CrawlState)
    (h : ¬ crawlCond cfg s) : crawlRun cfg n s = s := by
  cases n with
  | zero => rfl
  | succ m => unfold crawlRun; rw [if_neg h]

theorem crawlRun_succ (cfg : CrawlCfg) (n : Nat) (s : CrawlState) :
    crawlRun cfg (n + 1) s =
      if crawlCond cfg s then crawlRun cfg n (crawlStep cfg s) else s := rfl

theorem crawlRun_add (cfg : CrawlCfg) (a b : Nat) (s : CrawlState) :
    crawlRun cfg (a + b) s = crawlRun cfg b (crawlRun cfg a s) := by
  induction a generalizing s with
  | zero => rw [Nat.zero_add]; rfl
  | succ m ih =>
    have h1 : m + 1 + b = (m + b) + 1 := by omega
    rw [h1, crawlRun_succ, crawlRun_succ]
    by_cases hc : crawlCond cfg s
    · rw [if_pos hc, if_pos hc, ih]
    · rw [if_neg hc, if_neg hc, crawlRun_stable cfg b s hc]

/-- C1 (code bug): after a robots.txt load failure (a raised exception, e.g.
a network error), the parser was never read (`last_checked = 0`), so
CPython's `can_fetch` returns `False` for every URL regardless of the rule
evaluation — and a crawl gated by it therefore fetches nothing and ends
with an empty result map, the opposite of the allow-all degradation the
claim (and the crawler's own log message) promises. -/
theorem robots_load_failure_denies_all (msg : Str)
    (eval : List Str → Str → Str → Bool) (crawlable : Str → Bool)
    (fetch : Str → Page) (m fuel : Nat) (base url : Str) :
    crawler_can_fetch (load_robots (.raised msg)) eval url = false ∧
    (crawlRun
      ⟨fun v => crawler_can_fetch (load_robots (.raised msg)) eval v,
       crawlable, fetch, m⟩ fuel (crawlInit base)).pages = [] := by
  have hdeny : ∀ v, crawler_can_fetch (load_robots (.raised msg)) eval v = false := by
    intro v; rfl
  refine ⟨hdeny url, ?_⟩
  have key : ∀ (cfg : CrawlCfg), (∀ v, cfg.canFetch v = false) →
      ∀ f (s : CrawlState), (crawlRun cfg f s).pages = s.pages := by
    intro cfg hcf f
    induction f with
    | zero => intro s; rfl
    | succ n ih =>
      intro s
      unfold crawlRun
      split
      · rw [ih]
        unfold crawlStep
        cases hq : s.queue with
        | nil => rfl
        | cons u rest => simp [hcf u]
      · rfl
  exact key _ hdeny fuel (crawlInit base)

/-- C5 counterexample: with a transport-failing seed that yields no links,
the crawl still records a PageRecord for the seed (the error page consumes a
budget slot), so `results` is nonempty and the top-level "nothing crawled"
condition does **not** trigger — the run completes normally instead. -/
theorem seed_failure_not_nothing_crawled_counterexample :
    (crawlRun seedFailCfg 2 (crawlInit seedUrl)).pages =
      [(seedUrl, seedFailPage)] ∧
    seedFailPage.status_code = 0 ∧
    seedFailPage.error ≠ [] ∧
    seedFailPage.internal_links = [] ∧
    nothing_crawled (crawlRun seedFailCfg 2 (crawlInit seedUrl)).pages = false := by
  refine ⟨by decide, rfl, by decide, rfl, by decide⟩

/-- C5 (amended): when the seed URL's fetch transport-fails and yields no
extractable links (and robots allows the seed), the run terminates normally
with exactly one recorded page — the seed's error record — and the
"nothing crawled" abort condition (empty results) is **not** raised; that
condition can only arise when no page is ever recorded (e.g. every dequeued
URL robots-denied). -/
theorem seed_failure_records_error_page (cfg : CrawlCfg) (base : Str)
    (fuel : Nat)
    (hc : cfg.canFetch (rstripBase base) = true)
    (hl : (cfg.fetch (rstripBase base)).internal_links = [])
    (hm : 1 ≤ cfg.maxPages) (hf : 1 ≤ fuel) :
    (crawlRun cfg fuel (crawlInit base)).pages =
      [(rstripBase base, cfg.fetch (rstripBase base))] ∧
    nothing_crawled (crawlRun cfg fuel (crawlInit base)).pages = false := by
  obtain ⟨n, rfl⟩ : ∃ n, fuel = 1 + n := ⟨fuel - 1, by omega⟩
  rw [crawlRun_add]
  have step1 : crawlRun cfg 1 (crawlInit base) =
      ⟨[], [rstripBase base], [(rstripBase base, cfg.fetch (rstripBase base))]⟩ := by
    unfold crawlRun crawlRun
    rw [if_pos]
    · unfold crawlStep crawlInit
      simp only [hc, not_true_eq_false, if_false]
      rw [hl]
      unfold addLinks dictSet
      simp
    · exact ⟨by simp [crawlInit], by simpa [crawlInit] using hm⟩
  rw [step1, crawlRun_empty_queue cfg n _ rfl]
  exact ⟨rfl, rfl⟩

/-- C5 witness: the amended statement applied to the concrete failing-seed
world. -/
theorem seed_failure_records_error_page_witness :
    (crawlRun seedFailCfg 2 (crawlInit seedUrl)).pages =
      [(rstripBase seedUrl, seedFailCfg.fetch (rstripBase seedUrl))] ∧
    nothing_crawled (crawlRun seedFailCfg 2 (crawlInit seedUrl)).pages = false :=
  seed_failure_records_error_page seedFailCfg seedUrl 2 rfl rfl
    (by decide) (by decide)

theorem addLinks_visited_le (cfg : CrawlCfg) :
    ∀ (ls v q : List Str), v.length ≤ cfg.maxPages * 2 →
      (addLinks cfg ls v q).1.length ≤ cfg.maxPages * 2 := by
  intro ls
  induction ls with
  | nil => intro v q h; exact h
  | cons l t ih =>
    intro v q h
    unfold addLinks
    split
    · rename_i hcond
      apply ih
      rw [List.length_append]
      have := hcond.2.2
      simpa using this
    · exact ih v q h

theorem dictSet_length_le (d : List (Str × Page)) (k : Str) (v : Page) :
    (dictSet d k v).length ≤ d.length + 1 := by
  unfold dictSet
  split
  · rw [List.length_map]; omega
  · rw [List.length_append]; simp

theorem crawlStep_budget (cfg : CrawlCfg) (s : CrawlState)
    (hp : s.pages.length < cfg.maxPages)
    (hv : s.visited.length ≤ cfg.maxPages * 2) :
    (crawlStep cfg s).pages.length ≤ cfg.maxPages ∧
    (crawlStep cfg s).visited.length ≤ cfg.maxPages * 2 := by
  unfold crawlStep
  cases hq : s.queue with
  | nil => exact ⟨Nat.le_of_lt hp, hv⟩
  | cons url rest =>
    by_cases hcf : cfg.canFetch url
    · simp only [hcf, not_true_eq_false, if_false]
      constructor
      · have := dictSet_length_le s.pages url (cfg.fetch url)
        omega
      · exact addLinks_visited_le cfg (cfg.fetch url).internal_links
          s.visited rest hv
    · simp only [hcf, not_false_eq_true, if_true]
      exact ⟨Nat.le_of_lt hp, hv⟩

theorem crawlRun_budget (cfg : CrawlCfg) :
    ∀ (f : Nat) (s : CrawlState), s.pages.length ≤ cfg.maxPages →
      s.visited.length ≤ cfg.maxPages * 2 →
      (crawlRun cfg f s).pages.length ≤ cfg.maxPages ∧
      (crawlRun cfg f s).visited.length ≤ cfg.maxPages * 2 := by
  intro f
  induction f with
  | zero => intro s hp hv; exact ⟨hp, hv⟩
  | succ n ih =>
    intro s hp hv
    rw [crawlRun_succ]
    split
    · rename_i hc
      have step := crawlStep_budget cfg s hc.2 hv
      exact ih _ step.1 step.2
    · exact ⟨hp, hv⟩

/-- C2: the budget invariant.  For every crawl world, every positive page
budget and every number of executed loop iterations, the result map holds
at most `maxPages` entries and the visited set at most `2 * maxPages`
URLs. -/
theorem crawl_budget_invariant (cfg : CrawlCfg) (base : Str) (fuel : Nat)
    (hm : 1 ≤ cfg.maxPages) :
    (crawlRun cfg fuel (crawlInit base)).pages.length ≤ cfg.maxPages ∧
    (crawlRun cfg fuel (crawlInit base)).visited.length ≤ 2 * cfg.maxPages := by
  have h := crawlRun_budget cfg fuel (crawlInit base)
    (by simp [crawlInit]) (by simp [crawlInit]; omega)
  exact ⟨h.1, by rw [Nat.mul_comm]; exact h.2⟩

/-- C2 witness: the budget invariant at a concrete two-link world with
budget 2 after 10 iterations. -/
theorem crawl_budget_invariant_witness :
    (crawlRun demoCfg 10 (crawlInit seedUrl)).pages.length ≤ demoCfg.maxPages ∧
    (crawlRun demoCfg 10 (crawlInit seedUrl)).visited.length ≤ 2 * demoCfg.maxPages :=
  crawl_budget_invariant demoCfg seedUrl 10 (by decide)


theorem crawlStep_nil {cfg : CrawlCfg} {s : CrawlState} (h : s.queue = []) :
    crawlStep cfg s = s := by
  unfold crawlStep; rw [h]

theorem crawlStep_cons {cfg : CrawlCfg} {s : CrawlState} {url : Str}
    {rest : List Str} (h : s.queue = url :: rest) :
    crawlStep cfg s =
      if ¬ cfg.canFetch url then ⟨rest, s.visited, s.pages⟩
      else ⟨(addLinks cfg (cfg.fetch url).internal_links s.visited rest).2,
            (addLinks cfg (cfg.fetch url).internal_links s.visited rest).1,
            dictSet s.pages url (cfg.fetch url)⟩ := by
  unfold crawlStep; rw [h]

theorem addLinks_spec (cfg : CrawlCfg) :
    ∀ (ls v q : List Str), ∃ d : List Str,
      (addLinks cfg ls v q).1 = v ++ d ∧ (addLinks cfg ls v q).2 = q ++ d ∧
      d.Nodup ∧ ∀ x ∈ d, x ∉ v := by
  intro ls
  induction ls with
  | nil =>
    intro v q
    exact ⟨[], by simp [addLinks], by simp [addLinks], List.nodup_nil, by simp⟩
  | cons l t ih =>
    intro v q
    unfold addLinks
    split
    · rename_i hcond
      obtain ⟨d, h1, h2, h3, h4⟩ := ih (v ++ [l]) (q ++ [l])
      refine ⟨l :: d, ?_, ?_, ?_, ?_⟩
      · rw [h1, List.append_assoc]; rfl
      · rw [h2, List.append_assoc]; rfl
      · rw [List.nodup_cons]
        refine ⟨?_, h3⟩
        intro hmem
        have := h4 l hmem
        simp at this
      · intro x hx
        rcases List.mem_cons.mp hx with rfl | hx2
        · exact hcond.1
        · intro hxv
          exact h4 x hx2 (List.mem_append_left _ hxv)
    · exact ih v q

theorem crawlStep_nodup (cfg : CrawlCfg) (s : CrawlState)
    (hq : s.queue.Nodup)
    (hk : (s.pages.map Prod.fst).Nodup)
    (hdisj : ∀ u ∈ s.queue, u ∉ s.pages.map Prod.fst)
    (hsub : ∀ u, u ∈ s.queue ∨ u ∈ s.pages.map Prod.fst → u ∈ s.visited) :
    (crawlStep cfg s).queue.Nodup ∧
    ((crawlStep cfg s).pages.map Prod.fst).Nodup ∧
    (∀ u ∈ (crawlStep cfg s).queue, u ∉ (crawlStep cfg s).pages.map Prod.fst) ∧
    (∀ u, u ∈ (crawlStep cfg s).queue ∨ u ∈ (crawlStep cfg s).pages.map Prod.fst →
      u ∈ (crawlStep cfg s).visited) ∧
    (∃ t, (crawlStep cfg s).pages = s.pages ++ t) := by
  cases hqe : s.queue with
  | nil =>
    rw [crawlStep_nil hqe]
    exact ⟨hq, hk, hdisj, hsub, ⟨[], (List.append_nil _).symm⟩⟩
  | cons url rest =>
    rw [hqe] at hq hdisj
    have hsub2 : ∀ u, u ∈ url :: rest ∨ u ∈ s.pages.map Prod.fst →
        u ∈ s.visited := by
      intro u hu; apply hsub; rw [hqe]; exact hu
    rw [List.nodup_cons] at hq
    rw [crawlStep_cons hqe]
    by_cases hcf : cfg.canFetch url
    · simp only [hcf, not_true_eq_false, if_false]
      have hurlk : url ∉ s.pages.map Prod.fst := hdisj url (List.mem_cons_self _ _)
      have hset : dictSet s.pages url (cfg.fetch url) =
          s.pages ++ [(url, cfg.fetch url)] := by
        unfold dictSet; rw [if_neg hurlk]
      obtain ⟨d, h1, h2, h3, h4⟩ :=
        addLinks_spec cfg (cfg.fetch url).internal_links s.visited rest
      simp only [hset, h1, h2]
      have hkeys : ((s.pages ++ [(url, cfg.fetch url)]).map Prod.fst) =
          s.pages.map Prod.fst ++ [url] := by simp
      rw [hkeys]
      have hdnv : ∀ x ∈ d, x ∉ s.visited := h4
      refine ⟨?_, ?_, ?_, ?_, ⟨[(url, cfg.fetch url)], rfl⟩⟩
      · rw [List.nodup_append]
        refine ⟨hq.2, h3, ?_⟩
        intro x hx hxd
        exact hdnv x hxd (hsub2 x (Or.inl (List.mem_cons_of_mem _ hx)))
      · rw [List.nodup_append]
        refine ⟨hk, List.nodup_singleton _, ?_⟩
        intro x hx hxu
        rw [List.mem_singleton] at hxu
        subst hxu
        exact hurlk hx
      · intro u hu hukeys
        rcases List.mem_append.mp hukeys with hk1 | hk2
        · rcases List.mem_append.mp hu with hr | hd
          · exact hdisj u (List.mem_cons_of_mem _ hr) hk1
          · exact hdnv u hd (hsub2 u (Or.inr hk1))
        · rw [List.mem_singleton] at hk2
          subst hk2
          rcases List.mem_append.mp hu with hr | hd
          · exact hq.1 hr
          · exact hdnv u hd (hsub2 u (Or.inl (List.mem_cons_self _ _)))
      · intro u hu
        rcases hu with hu | hu
        · rcases List.mem_append.mp hu with hr | hd
          · exact List.mem_append_left _
              (hsub2 u (Or.inl (List.mem_cons_of_mem _ hr)))
          · exact List.mem_append_right _ hd
        · rcases List.mem_append.mp hu with hk1 | hk2
          · exact List.mem_append_left _ (hsub2 u (Or.inr hk1))
          · rw [List.mem_singleton] at hk2
            subst hk2
            exact List.mem_append_left _
              (hsub2 u (Or.inl (List.mem_cons_self _ _)))
    · simp only [hcf, not_false_eq_true, if_true]
      refine ⟨hq.2, hk, ?_, ?_, ⟨[], (List.append_nil _).symm⟩⟩
      · intro u hu
        exact hdisj u (List.mem_cons_of_mem _ hu)
      · intro u hu
        rcases hu with hu | hu
        · exact hsub2 u (Or.inl (List.mem_cons_of_mem _ hu))
        · exact hsub2 u (Or.inr hu)

theorem crawlRun_nodup (cfg : CrawlCfg) :
    ∀ (f : Nat) (s : CrawlState), s.queue.Nodup →
      (s.pages.map Prod.fst).Nodup →
      (∀ u ∈ s.queue, u ∉ s.pages.map Prod.fst) →
      (∀ u, u ∈ s.queue ∨ u ∈ s.pages.map Prod.fst → u ∈ s.visited) →
      ((crawlRun cfg f s).queue.Nodup ∧
       ((crawlRun cfg f s).pages.map Prod.fst).Nodup ∧
       (∀ u ∈ (crawlRun cfg f s).queue,
         u ∉ (crawlRun cfg f s).pages.map Prod.fst) ∧
       (∀ u, u ∈ (crawlRun cfg f s).queue ∨
           u ∈ (crawlRun cfg f s).pages.map Prod.fst →
         u ∈ (crawlRun cfg f s).visited) ∧
       (∃ t, (crawlRun cfg f s).pages = s.pages ++ t)) := by
  intro f
  induction f with
  | zero =>
    intro s h1 h2 h3 h4
    exact ⟨h1, h2, h3, h4, ⟨[], (List.append_nil _).symm⟩⟩
  | succ n ih =>
    intro s h1 h2 h3 h4
    rw [crawlRun_succ]
    split
    · obtain ⟨g1, g2, g3, g4, g5⟩ := crawlStep_nodup cfg s h1 h2 h3 h4
      obtain ⟨r1, r2, r3, r4, r5⟩ := ih (crawlStep cfg s) g1 g2 g3 g4
      refine ⟨r1, r2, r3, r4, ?_⟩
      obtain ⟨t1, ht1⟩ := g5
      obtain ⟨t2, ht2⟩ := r5
      exact ⟨t1 ++ t2, by rw [ht2, ht1, List.append_assoc]⟩
    · exact ⟨h1, h2, h3, h4, ⟨[], (List.append_nil _).symm⟩⟩

/-- C3: no URL is fetched more than once.  For every crawl world and every
number of executed iterations, the keys of the result map are pairwise
distinct (each key is written exactly once — the map only ever grows by
appending a freshly-dequeued, never-before-recorded URL), every recorded
URL is in the visited set, and the result map of a longer run extends that
of a shorter run, so an entry once written is never overwritten. -/
theorem crawl_no_duplicate_fetch (cfg : CrawlCfg) (base : Str) :
    (∀ fuel, ((crawlRun cfg fuel (crawlInit base)).pages.map Prod.fst).Nodup ∧
      ∀ u ∈ (crawlRun cfg fuel (crawlInit base)).pages.map Prod.fst,
        u ∈ (crawlRun cfg fuel (crawlInit base)).visited) ∧
    (∀ f1 f2, f1 ≤ f2 → ∃ t,
      (crawlRun cfg f2 (crawlInit base)).pages =
        (crawlRun cfg f1 (crawlInit base)).pages ++ t) := by
  have hinit1 : (crawlInit base).queue.Nodup := List.nodup_singleton _
  have hinit2 : ((crawlInit base).pages.map Prod.fst).Nodup := List.nodup_nil
  have hinit3 : ∀ u ∈ (crawlInit base).queue,
      u ∉ (crawlInit base).pages.map Prod.fst := by
    intro u _ hu
    simp [crawlInit] at hu
  have hinit4 : ∀ u, u ∈ (crawlInit base).queue ∨
      u ∈ (crawlInit base).pages.map Prod.fst → u ∈ (crawlInit base).visited := by
    intro u hu
    rcases hu with hu | hu
    · exact hu
    · simp [crawlInit] at hu
  constructor
  · intro fuel
    obtain ⟨_, g2, _, g4, _⟩ :=
      crawlRun_nodup cfg fuel (crawlInit base) hinit1 hinit2 hinit3 hinit4
    exact ⟨g2, fun u hu => g4 u (Or.inr hu)⟩
  · intro f1 f2 hle
    obtain ⟨k, rfl⟩ : ∃ k, f2 = f1 + k := ⟨f2 - f1, by omega⟩
    rw [crawlRun_add]
    obtain ⟨g1, g2, g3, g4, _⟩ :=
      crawlRun_nodup cfg f1 (crawlInit base) hinit1 hinit2 hinit3 hinit4
    obtain ⟨_, _, _, _, g5⟩ := crawlRun_nodup cfg k _ g1 g2 g3 g4
    exact g5

/-- C3 witness: the extension property at concrete fuels 2 ≤ 3 in the
two-link demo world. -/
theorem crawl_no_duplicate_fetch_witness :
    ∃ t, (crawlRun demoCfg 3 (crawlInit seedUrl)).pages =
      (crawlRun demoCfg 2 (crawlInit seedUrl)).pages ++ t :=
  (crawl_no_duplicate_fetch demoCfg seedUrl).2 2 3 (by decide)

theorem cidInsert_ok {st : List (Str × (Str × Str))} {k v : Str}
    (h1 : (st.map Prod.fst).Nodup)
    (h2 : ∀ e ∈ st, e.1 = e.2.1.map asciiLower) :
    ((cidInsert st k v).map Prod.fst).Nodup ∧
    ∀ e ∈ cidInsert st k v, e.1 = e.2.1.map asciiLower := by
  unfold cidInsert
  split
  · constructor
    · have hkeys : (st.map (fun e =>
          if e.1 = k.map asciiLower then (e.1, (k, v)) else e)).map Prod.fst =
          st.map Prod.fst := by
        rw [List.map_map]
        apply List.map_congr_left
        intro e _
        by_cases he : e.1 = k.map asciiLower <;> simp [he]
      rw [hkeys]
      exact h1
    · intro e he
      rw [List.mem_map] at he
      obtain ⟨x, hx, hxe⟩ := he
      by_cases hxk : x.1 = k.map asciiLower
      · rw [if_pos hxk] at hxe
        rw [← hxe]
        exact hxk
      · rw [if_neg hxk] at hxe
        rw [← hxe]
        exact h2 x hx
  · rename_i hnk
    constructor
    · rw [List.map_append, List.nodup_append]
      refine ⟨h1, List.nodup_singleton _, ?_⟩
      intro x hx hxk
      simp at hxk
      subst hxk
      exact hnk hx
    · intro e he
      rcases List.mem_append.mp he with he1 | he2
      · exact h2 e he1
      · rw [List.mem_singleton] at he2
        subst he2
        rfl

theorem buildCID_ok (raw : List (Str × Str)) :
    ((buildCID raw).map Prod.fst).Nodup ∧
    ∀ e ∈ buildCID raw, e.1 = e.2.1.map asciiLower := by
  unfold buildCID
  suffices h : ∀ st : List (Str × (Str × Str)), (st.map Prod.fst).Nodup →
      (∀ e ∈ st, e.1 = e.2.1.map asciiLower) →
      (((raw.foldl (fun st e => cidInsert st e.1 e.2) st).map Prod.fst).Nodup ∧
       ∀ e ∈ raw.foldl (fun st e => cidInsert st e.1 e.2) st,
         e.1 = e.2.1.map asciiLower) by
    exact h [] List.nodup_nil (by simp)
  induction raw with
  | nil => intro st g1 g2; exact ⟨g1, g2⟩
  | cons x t ih =>
    intro st g1 g2
    rw [List.foldl_cons]
    obtain ⟨n1, n2⟩ := cidInsert_ok g1 g2
    exact ih _ n1 n2

theorem fetchHeaders_keys_nodup (raw : List (Str × Str)) :
    ((fetchHeaders raw).map Prod.fst).Nodup := by
  obtain ⟨h1, h2⟩ := buildCID_ok raw
  unfold fetchHeaders
  apply List.Nodup.of_map (fun s : Str => s.map asciiLower)
  have heq : (((buildCID raw).map Prod.snd).map Prod.fst).map
      (fun s : Str => s.map asciiLower) = (buildCID raw).map Prod.fst := by
    rw [List.map_map, List.map_map]
    apply List.map_congr_left
    intro e he
    exact (h2 e he).symm
  rw [heq]
  exact h1

theorem pyDictGet_of_mem_nodup {d : List (Str × Str)}
    (hn : (d.map Prod.fst).Nodup) {k v : Str} (hm : (k, v) ∈ d) :
    pyDictGet d k = some v := by
  induction d with
  | nil => cases hm
  | cons e t ih =>
    rw [List.map_cons, List.nodup_cons] at hn
    unfold pyDictGet
    rw [List.find?_cons]
    rcases List.mem_cons.mp hm with rfl | hm2
    · simp
    · have hek : e.1 ≠ k := by
        intro hek
        apply hn.1
        rw [hek]
        exact List.mem_map_of_mem Prod.fst hm2
      rw [decide_eq_false hek]
      exact ih hn.2 hm2

/-- C4 (amended): the headers mapping stored on a PageRecord is a plain
`dict` snapshot keyed by the header names in their original received
casing; a lookup succeeds (exactly) for the stored original-cased name —
case-insensitive queryability is lost by the `dict(...)` conversion. -/
theorem headers_exact_case_lookup (raw : List (Str × Str)) (k v : Str)
    (h : (k, v) ∈ fetchHeaders raw) :
    pyDictGet (fetchHeaders raw) k = some v :=
  pyDictGet_of_mem_nodup (fetchHeaders_keys_nodup raw) h

/-- C4 witness: the exact-case lookup at the concrete `Content-Type`
header. -/
theorem headers_exact_case_lookup_witness :
    pyDictGet (fetchHeaders ctHeaders) (str "Content-Type") =
      some (str "text/html") :=
  headers_exact_case_lookup ctHeaders (str "Content-Type") (str "text/html")
    (by decide)

/-- C4 counterexample: `content-type` is a letter-case variant of the
stored header name `Content-Type` (they agree after ASCII lower-casing),
yet looking it up in the stored mapping yields nothing while the
original-cased name yields the value — the mapping is not queryable
case-insensitively. -/
theorem headers_case_insensitive_counterexample :
    (str "content-type") = (str "Content-Type").map asciiLower ∧
    pyDictGet (fetchHeaders ctHeaders) (str "content-type") = none ∧
    pyDictGet (fetchHeaders ctHeaders) (str "Content-Type") =
      some (str "text/html") := by
  refine ⟨by decide, by decide, by decide⟩

theorem splitRuns_ne_nil (p : Char → Bool) : ∀ t : Str, splitRuns p t ≠ [] := by
  intro t
  cases t with
  | nil => simp [splitRuns]
  | cons c t2 =>
    unfold splitRuns
    split
    · simp
    · split <;> simp

theorem splitRuns_headD (p : Char → Bool) :
    ∀ t : Str, (splitRuns p t).headD [] = t.takeWhile (fun c => ¬ p c) := by
  intro t
  induction t with
  | nil => rfl
  | cons c t2 ih =>
    unfold splitRuns
    cases hs : splitRuns p t2 with
    | nil => exact absurd hs (splitRuns_ne_nil p t2)
    | cons h r =>
      rw [hs] at ih
      simp only [List.headD_cons] at ih
      by_cases hc : p c
      · simp [hc, List.takeWhile_cons]
      · simp [hc, List.takeWhile_cons, ih]

theorem latinMatches_countP :
    ∀ (s : Str) (b : Bool),
      latinMatches b s + (if b ∧ headIsLatin s then 1 else 0) =
      (splitRuns (fun c => ¬ isLatinLetter c) s).countP (fun g => ¬ g.isEmpty) := by
  intro s
  induction s with
  | nil => intro b; cases b <;> rfl
  | cons c t ih =>
    intro b
    have hhead : ((splitRuns (fun c => ¬ isLatinLetter c) t).headD []).isEmpty
        = ! headIsLatin t := by
      rw [splitRuns_headD]
      cases t with
      | nil => rfl
      | cons d t2 =>
        rw [List.takeWhile_cons]
        by_cases hd : isLatinLetter d
        · simp [hd, headIsLatin]
        · simp [hd, headIsLatin]
    cases hs : splitRuns (fun c => ¬ isLatinLetter c) t with
    | nil => exact absurd hs (splitRuns_ne_nil _ t)
    | cons h r =>
      rw [hs] at ih hhead
      simp only [List.headD_cons] at hhead
      have hlm : ∀ b2 : Bool, latinMatches b2 (c :: t) =
          (if isLatinLetter c ∧ ¬ b2 then 1 else 0) +
            latinMatches (isLatinLetter c) t := by
        intro b2; rfl
      by_cases hc : isLatinLetter c
      · have hsplit : splitRuns (fun c => ¬ isLatinLetter c) (c :: t) =
            (c :: h) :: r := by
          unfold splitRuns
          rw [hs]
          simp [hc]
        have hih := ih true
        rw [List.countP_cons] at hih
        rw [hsplit, List.countP_cons, hlm b, hc]
        have hhl : headIsLatin (c :: t) = true := by simp [headIsLatin, hc]
        rw [hhl]
        simp only [List.isEmpty_cons, hhead] at hih ⊢
        cases b <;> cases hht : headIsLatin t <;> simp [hht] at hih ⊢ <;> omega
      · have hsplit : splitRuns (fun c => ¬ isLatinLetter c) (c :: t) =
            [] :: h :: r := by
          unfold splitRuns
          rw [hs]
          simp [hc]
        have hih := ih false
        rw [List.countP_cons] at hih
        rw [hsplit, List.countP_cons, hlm b]
        have hc2 : isLatinLetter c = false := by simpa using hc
        have hhl : headIsLatin (c :: t) = false := by simp [headIsLatin, hc2]
        rw [hhl, hc2]
        rw [List.countP_cons]
        by_cases hht : headIsLatin t <;> by_cases hhe : h = [] <;>
          simp [hht, hhe] at hhead hih ⊢ <;> omega

/-- C10: the extractor's word count is exactly the number of CJK Unified
Ideograph characters plus the number of maximal Latin-alphabet runs of the
visible text (the text remaining after script/style/nav/header/footer
removal), and on the scenario body `<p>你好世界 hello world</p>` it equals
4 + 2 = 6. -/
theorem word_count_cjk_plus_latin :
    (∀ doc : List HtmlNode, page_word_count doc =
      chinese_chars (getText (stripChildren doc)) +
      maximalLatinRuns (getText (stripChildren doc))) ∧
    page_word_count scenarioDoc = 6 := by
  constructor
  · intro doc
    unfold page_word_count
    have := latinMatches_countP (getText (stripChildren doc)) false
    simp only [Bool.false_eq_true, false_and, if_false, Nat.add_zero] at this
    unfold english_words maximalLatinRuns
    dsimp only
    rw [this]
  · decide

theorem char_toNat_ofNat {n : Nat} (h : n.isValidChar) :
    (Char.ofNat n).toNat = n := by
  unfold Char.ofNat
  split
  · simp [Char.toNat, Char.ofNatAux, UInt32.toNat, BitVec.toNat_ofNatLt]
  · exact absurd h (by assumption)

theorem char_upper_range {c : Char} (h1 : 'A' ≤ c) (h2 : c ≤ 'Z') :
    65 ≤ c.toNat ∧ c.toNat ≤ 90 := by
  rw [Char.le_def, UInt32.le_def, BitVec.le_def] at h1 h2
  have e1 : ('A'.val.toBitVec.toNat) = 65 := rfl
  have e2 : ('Z'.val.toBitVec.toNat) = 90 := rfl
  rw [e1] at h1
  rw [e2] at h2
  simp only [Char.toNat, UInt32.toNat]
  omega

theorem asciiLower_cases (x : Char) :
    asciiLower x = x ∨
    (97 ≤ (asciiLower x).toNat ∧ (asciiLower x).toNat ≤ 122) := by
  unfold asciiLower
  split
  · rename_i h
    right
    obtain ⟨g1, g2⟩ := char_upper_range h.1 h.2
    have hv : (x.toNat + 32).isValidChar := by
      left
      omega
    rw [char_toNat_ofNat hv]
    omega
  · left; rfl

theorem mem_map_asciiLower {c : Char} {l : Str}
    (h : c ∈ l.map asciiLower) (hc : ¬ (97 ≤ c.toNat ∧ c.toNat ≤ 122)) :
    c ∈ l := by
  rw [List.mem_map] at h
  obtain ⟨x, hx, hxc⟩ := h
  rcases asciiLower_cases x with he | hr
  · rw [← hxc, he]; exact hx
  · rw [hxc] at hr
    exact absurd hr hc

theorem mem_sanitizeUrl {c : Char} {u : Str} (h : c ∈ sanitizeUrl u) : c ∈ u := by
  unfold sanitizeUrl at h
  have h2 := (List.filter_sublist _).subset h
  exact (List.dropWhile_sublist _).subset h2

theorem mem_sanitizeScheme {c : Char} {s : Str} (h : c ∈ sanitizeScheme s) :
    c ∈ s := by
  unfold sanitizeScheme at h
  have h2 := (List.filter_sublist _).subset h
  rw [List.mem_reverse] at h2
  have h3 := (List.dropWhile_sublist _).subset h2
  rw [List.mem_reverse] at h3
  exact (List.dropWhile_sublist _).subset h3

theorem splitSchemePart_mem (ds url : Str) :
    (∀ c ∈ (splitSchemePart ds url).1,
       c ∈ ds ∨ c ∈ url ∨ (97 ≤ c.toNat ∧ c.toNat ≤ 122)) ∧
    (∀ c ∈ (splitSchemePart ds url).2, c ∈ url) := by
  unfold splitSchemePart
  split
  · exact ⟨fun c hc => Or.inl hc, fun c hc => hc⟩
  · dsimp only
    split
    · constructor
      · intro c hc
        by_cases hr : 97 ≤ c.toNat ∧ c.toNat ≤ 122
        · exact Or.inr (Or.inr hr)
        · have := mem_map_asciiLower hc hr
          have h2 := (List.takeWhile_sublist _).subset this
          exact Or.inr (Or.inl h2)
      · intro c hc
        rename_i heq _
        have : c ∈ url.dropWhile (fun c => c ≠ ':') := by
          rw [heq]
          exact List.mem_cons_of_mem _ hc
        exact (List.dropWhile_sublist _).subset this
    · exact ⟨fun c hc => Or.inl hc, fun c hc => hc⟩

theorem splitFragmentQuery_mem (scheme netloc url : Str) :
    (∀ c ∈ (splitFragmentQuery scheme netloc url).path, c ∈ url) ∧
    (∀ c ∈ (splitFragmentQuery scheme netloc url).query, c ∈ url) ∧
    (∀ c ∈ (splitFragmentQuery scheme netloc url).fragment, c ∈ url) := by
  unfold splitFragmentQuery
  have hfq : ∀ (u1 : Str), (∀ c ∈ u1, c ∈ url) →
      ∀ c ∈ (if '?' ∈ u1 then
          (u1.takeWhile (fun c => c ≠ '?'),
           (u1.dropWhile (fun c => c ≠ '?')).tail)
        else (u1, ([] : Str))).1, c ∈ url := by
    intro u1 hsub c hc
    split at hc
    · exact hsub c ((List.takeWhile_sublist _).subset hc)
    · exact hsub c hc
  constructor
  · dsimp only
    split
    · split
      · intro c hc
        have := (List.takeWhile_sublist (l := url.takeWhile (fun c => c ≠ '#'))
          (fun c => c ≠ '?')).subset hc
        exact (List.takeWhile_sublist _).subset this
      · intro c hc
        exact (List.takeWhile_sublist _).subset hc
    · split
      · intro c hc
        exact (List.takeWhile_sublist _).subset hc
      · intro c hc
        exact hc
  constructor
  · dsimp only
    split
    · split
      · intro c hc
        have h1 := (List.tail_sublist _).subset hc
        have h2 := (List.dropWhile_sublist _).subset h1
        exact (List.takeWhile_sublist _).subset h2
      · intro c hc
        simp at hc
    · split
      · intro c hc
        have h1 := (List.tail_sublist _).subset hc
        exact (List.dropWhile_sublist _).subset h1
      · intro c hc
        simp at hc
  · dsimp only
    split
    · intro c hc
      have h1 := (List.tail_sublist _).subset hc
      exact (List.dropWhile_sublist _).subset h1
    · intro c hc
      simp at hc

theorem urlsplitCore_ok (ds url : Str) (h1 : '[' ∉ url) (h2 : ']' ∉ url) :
    ∃ r, urlsplitCore ds url = .ok r := by
  unfold urlsplitCore
  split
  split
  · rename_i rest2 heq
    dsimp only
    rw [if_neg]
    · exact ⟨_, rfl⟩
    · have hrest : ∀ c ∈ rest2, c ∈ url := by
        intro c hc
        have hm : c ∈ (splitSchemePart ds url).2 := by
          rw [heq]
          exact List.mem_cons_of_mem _ (List.mem_cons_of_mem _ hc)
        exact (splitSchemePart_mem ds url).2 c hm
      rintro (⟨hb, _⟩ | ⟨hb, _⟩)
      · exact h1 (hrest _ ((List.takeWhile_sublist _).subset hb))
      · exact h2 (hrest _ ((List.takeWhile_sublist _).subset hb))
  · exact ⟨_, rfl⟩

theorem urlsplitCore_mem {ds url : Str} {r : SplitResult}
    (h : urlsplitCore ds url = .ok r) :
    (∀ c ∈ r.scheme, c ∈ ds ∨ c ∈ url ∨ (97 ≤ c.toNat ∧ c.toNat ≤ 122)) ∧
    (∀ c ∈ r.netloc, c ∈ url) ∧
    (∀ c ∈ r.path, c ∈ url) ∧
    (∀ c ∈ r.query, c ∈ url) ∧
    (∀ c ∈ r.fragment, c ∈ url) := by
  have hs := splitSchemePart_mem ds url
  unfold urlsplitCore at h
  split at h
  split at h
  · rename_i rest2 heq
    have hrest : ∀ c ∈ rest2, c ∈ url := by
      intro c hc
      apply hs.2
      rw [heq]
      exact List.mem_cons_of_mem _ (List.mem_cons_of_mem _ hc)
    have hsch : ∀ c ∈ (splitSchemePart ds url).1,
        c ∈ ds ∨ c ∈ url ∨ (97 ≤ c.toNat ∧ c.toNat ≤ 122) := hs.1
    rw [heq] at hsch
    dsimp only at h hsch
    split at h
    · cases h
    · cases h
      have hq := splitFragmentQuery_mem
        (splitSchemePart ds url).1
        (rest2.takeWhile (fun c => ¬ isNetlocStop c))
        (rest2.dropWhile (fun c => ¬ isNetlocStop c))
      rw [heq] at hq
      dsimp only at hq
      refine ⟨hsch, ?_, ?_, ?_, ?_⟩
      · intro c hc
        exact hrest c ((List.takeWhile_sublist _).subset hc)
      · intro c hc
        exact hrest c ((List.dropWhile_sublist _).subset (hq.1 c hc))
      · intro c hc
        exact hrest c ((List.dropWhile_sublist _).subset (hq.2.1 c hc))
      · intro c hc
        exact hrest c ((List.dropWhile_sublist _).subset (hq.2.2 c hc))
  · rename_i heq u22 hno
    cases h
    have hq := splitFragmentQuery_mem (splitSchemePart ds url).1 []
      (splitSchemePart ds url).2
    rw [heq] at hq
    have hsch : ∀ c ∈ (splitSchemePart ds url).1,
        c ∈ ds ∨ c ∈ url ∨ (97 ≤ c.toNat ∧ c.toNat ≤ 122) := hs.1
    rw [heq] at hsch
    refine ⟨hsch, ?_, ?_, ?_, ?_⟩
    · intro c hc
      exact absurd hc (List.not_mem_nil c)
    · intro c hc
      have hm := hq.1 c hc
      apply hs.2
      rw [heq]
      exact hm
    · intro c hc
      have hm := hq.2.1 c hc
      apply hs.2
      rw [heq]
      exact hm
    · intro c hc
      have hm := hq.2.2 c hc
      apply hs.2
      rw [heq]
      exact hm

theorem splitparams_mem (url : Str) :
    (∀ c ∈ (splitparams url).1, c ∈ url) ∧
    (∀ c ∈ (splitparams url).2, c ∈ url) := by
  unfold splitparams
  have hsuf : ∀ c ∈ (url.reverse.takeWhile (fun c => c ≠ '/')).reverse, c ∈ url := by
    intro c hc
    rw [List.mem_reverse] at hc
    have := (List.takeWhile_sublist _).subset hc
    rwa [List.mem_reverse] at this
  split
  · dsimp only
    split
    · constructor
      · intro c hc
        rcases List.mem_append.mp hc with hc1 | hc2
        · exact List.take_subset _ _ hc1
        · exact hsuf c ((List.takeWhile_sublist _).subset hc2)
      · intro c hc
        have h1 := (List.tail_sublist _).subset hc
        exact hsuf c ((List.dropWhile_sublist _).subset h1)
    · exact ⟨fun c hc => hc, fun c hc => by simp at hc⟩
  · constructor
    · intro c hc
      exact (List.takeWhile_sublist _).subset hc
    · intro c hc
      have h1 := (List.tail_sublist _).subset hc
      exact (List.dropWhile_sublist _).subset h1

theorem urlparseE_ok (ds u : Str) (h1 : '[' ∉ sanitizeUrl u)
    (h2 : ']' ∉ sanitizeUrl u) :
    ∃ p, urlparseE ds u = .ok p := by
  obtain ⟨r, hr⟩ := urlsplitCore_ok (sanitizeScheme ds) (sanitizeUrl u) h1 h2
  refine ⟨paramsStep r, ?_⟩
  unfold urlparseE urlsplitE
  rw [hr]

theorem urlparseE_mem {ds u : Str} {p : ParseResult}
    (h : urlparseE ds u = .ok p) :
    (∀ c ∈ p.scheme, c ∈ ds ∨ c ∈ u ∨ (97 ≤ c.toNat ∧ c.toNat ≤ 122)) ∧
    (∀ c ∈ p.netloc, c ∈ u) ∧
    (∀ c ∈ p.path, c ∈ u) ∧
    (∀ c ∈ p.params, c ∈ u) ∧
    (∀ c ∈ p.query, c ∈ u) ∧
    (∀ c ∈ p.fragment, c ∈ u) := by
  unfold urlparseE at h
  split at h
  · cases h
  · rename_i r hr
    cases h
    obtain ⟨m1, m2, m3, m4, m5⟩ := urlsplitCore_mem hr
    have hm1 : ∀ c ∈ r.scheme, c ∈ ds ∨ c ∈ u ∨ (97 ≤ c.toNat ∧ c.toNat ≤ 122) := by
      intro c hc
      rcases m1 c hc with hd | hu2 | hl
      · exact Or.inl (mem_sanitizeScheme hd)
      · exact Or.inr (Or.inl (mem_sanitizeUrl hu2))
      · exact Or.inr (Or.inr hl)
    have hm3 : ∀ c ∈ r.path, c ∈ u := fun c hc => mem_sanitizeUrl (m3 c hc)
    unfold paramsStep
    split
    · dsimp only
      have hp := splitparams_mem r.path
      refine ⟨hm1, ?_, ?_, ?_, ?_, ?_⟩
      · intro c hc; exact mem_sanitizeUrl (m2 c hc)
      · intro c hc; exact hm3 c (hp.1 c hc)
      · intro c hc; exact hm3 c (hp.2 c hc)
      · intro c hc; exact mem_sanitizeUrl (m4 c hc)
      · intro c hc; exact mem_sanitizeUrl (m5 c hc)
    · refine ⟨hm1, ?_, hm3, ?_, ?_, ?_⟩
      · intro c hc; exact mem_sanitizeUrl (m2 c hc)
      · intro c hc; simp at hc
      · intro c hc; exact mem_sanitizeUrl (m4 c hc)
      · intro c hc; exact mem_sanitizeUrl (m5 c hc)

theorem mem_ite_append {p : Prop} [Decidable p] {x tail : Str} {sp c : Char}
    (h : c ∈ (if p then x ++ sp :: tail else x)) :
    c ∈ x ∨ c = sp ∨ c ∈ tail := by
  split at h
  · rcases List.mem_append.mp h with a | a
    · exact Or.inl a
    · rcases List.mem_cons.mp a with a | a
      · exact Or.inr (Or.inl a)
      · exact Or.inr (Or.inr a)
  · exact Or.inl h

theorem mem_ite_pre {p : Prop} [Decidable p] {x tail : Str} {sp c : Char}
    (h : c ∈ (if p then x ++ sp :: tail else tail)) :
    c ∈ x ∨ c = sp ∨ c ∈ tail := by
  split at h
  · rcases List.mem_append.mp h with a | a
    · exact Or.inl a
    · rcases List.mem_cons.mp a with a | a
      · exact Or.inr (Or.inl a)
      · exact Or.inr (Or.inr a)
  · exact Or.inr (Or.inr h)

theorem urlunsplit_mem {scheme netloc url query fragment : Str} {c : Char}
    (h : c ∈ urlunsplit scheme netloc url query fragment) :
    c ∈ scheme ∨ c ∈ netloc ∨ c ∈ url ∨ c ∈ query ∨ c ∈ fragment ∨
    c = ':' ∨ c = '/' ∨ c = '?' ∨ c = '#' := by
  unfold urlunsplit at h
  dsimp only at h
  rcases mem_ite_append (p := fragment ≠ []) h with h2 | h2 | h2
  rotate_left
  · tauto
  · tauto
  rcases mem_ite_append (p := query ≠ []) h2 with h3 | h3 | h3
  rotate_left
  · tauto
  · tauto
  rcases mem_ite_pre (p := scheme ≠ []) h3 with h4 | h4 | h4
  · tauto
  · tauto
  have hurl1 : c = '/' ∨ c ∈ netloc ∨ c ∈ url := by
    split at h4
    · rcases List.mem_cons.mp h4 with rfl | h5
      · exact Or.inl rfl
      rcases List.mem_cons.mp h5 with rfl | h6
      · exact Or.inl rfl
      rcases List.mem_append.mp h6 with a | a
      · exact Or.inr (Or.inl a)
      · split at a
        · rcases List.mem_cons.mp a with rfl | a2
          · exact Or.inl rfl
          · exact Or.inr (Or.inr a2)
        · exact Or.inr (Or.inr a)
    · exact Or.inr (Or.inr h4)
  tauto

theorem urlunparse_mem {scheme netloc url params query fragment : Str}
    {c : Char}
    (h : c ∈ urlunparse scheme netloc url params query fragment) :
    c ∈ scheme ∨ c ∈ netloc ∨ c ∈ url ∨ c ∈ params ∨ c ∈ query ∨
    c ∈ fragment ∨ c = ':' ∨ c = '/' ∨ c = '?' ∨ c = '#' ∨ c = ';' := by
  unfold urlunparse at h
  dsimp only at h
  rcases urlunsplit_mem h with h2 | h2 | h2 | h2 | h2 | h2 | h2 | h2 | h2
  · tauto
  · tauto
  · rcases mem_ite_append (p := params ≠ []) h2 with h3 | h3 | h3 <;> tauto
  · tauto
  · tauto
  · tauto
  · tauto
  · tauto
  · tauto

theorem pySplit_mem {sep : Char} :
    ∀ {l seg : Str}, seg ∈ pySplit sep l → ∀ c ∈ seg, c ∈ l := by
  intro l
  induction l with
  | nil =>
    intro seg hseg c hc
    simp [pySplit] at hseg
    subst hseg
    cases hc
  | cons a t ih =>
    intro seg hseg c hc
    unfold pySplit at hseg
    cases hs : pySplit sep t with
    | nil =>
      rw [hs] at hseg
      simp at hseg
      subst hseg
      cases hc
    | cons hd r =>
      rw [hs] at hseg
      dsimp only at hseg
      by_cases ha : a = sep
      · rw [if_pos ha] at hseg
        rcases List.mem_cons.mp hseg with rfl | hseg2
        · cases hc
        · have hm : seg ∈ pySplit sep t := by rw [hs]; exact hseg2
          exact List.mem_cons_of_mem _ (ih hm c hc)
      · rw [if_neg ha] at hseg
        rcases List.mem_cons.mp hseg with rfl | hseg2
        · rcases List.mem_cons.mp hc with rfl | hc2
          · exact List.mem_cons_self _ _
          · have hm : hd ∈ pySplit sep t := by
              rw [hs]; exact List.mem_cons_self _ _
            exact List.mem_cons_of_mem _ (ih hm c hc2)
        · have hm : seg ∈ pySplit sep t := by
            rw [hs]; exact List.mem_cons_of_mem _ hseg2
          exact List.mem_cons_of_mem _ (ih hm c hc)

theorem pyJoin_mem {sep : Char} :
    ∀ {L : List Str} {c : Char}, c ∈ pyJoin sep L →
      c = sep ∨ ∃ seg ∈ L, c ∈ seg := by
  intro L
  induction L with
  | nil => intro c hc; cases hc
  | cons p ps ih =>
    intro c hc
    cases ps with
    | nil =>
      right
      exact ⟨p, List.mem_cons_self _ _, hc⟩
    | cons q qs =>
      unfold pyJoin at hc
      rcases List.mem_append.mp hc with h1 | h2
      · exact Or.inr ⟨p, List.mem_cons_self _ _, h1⟩
      · rcases List.mem_cons.mp h2 with rfl | h3
        · exact Or.inl rfl
        · rcases ih h3 with h4 | ⟨seg, hs1, hs2⟩
          · exact Or.inl h4
          · exact Or.inr ⟨seg, List.mem_cons_of_mem _ hs1, hs2⟩

theorem mem_resolveSegments :
    ∀ {segs : List Str} {x : Str}, x ∈ resolveSegments segs → x ∈ segs := by
  have key : ∀ (segs : List Str) (acc : List Str) (x : Str),
      x ∈ segs.foldl
        (fun acc seg =>
          if seg = str ".." then acc.dropLast
          else if seg = str "." then acc
          else acc ++ [seg]) acc → x ∈ acc ∨ x ∈ segs := by
    intro segs
    induction segs with
    | nil => intro acc x hx; exact Or.inl hx
    | cons sg t ih =>
      intro acc x hx
      rw [List.foldl_cons] at hx
      rcases ih _ x hx with hacc | ht
      · split at hacc
        · exact Or.inl (List.dropLast_subset _ hacc)
        · split at hacc
          · exact Or.inl hacc
          · rcases List.mem_append.mp hacc with h1 | h2
            · exact Or.inl h1
            · rw [List.mem_singleton] at h2
              subst h2
              exact Or.inr (List.mem_cons_self _ _)
      · exact Or.inr (List.mem_cons_of_mem _ ht)
  intro segs x hx
  rcases key segs [] x hx with h1 | h2
  · cases h1
  · exact h2

theorem filterMiddleTail_subset :
    ∀ (l : List Str), ∀ x ∈ filterMiddle.filterMiddleTail l, x ∈ l := by
  intro l
  induction l with
  | nil => intro x hx; cases hx
  | cons a t ih =>
    intro x hx
    cases t with
    | nil =>
      unfold filterMiddle.filterMiddleTail at hx
      exact hx
    | cons b t2 =>
      unfold filterMiddle.filterMiddleTail at hx
      split at hx
      · exact List.mem_cons_of_mem _ (ih x hx)
      · rcases List.mem_cons.mp hx with rfl | h2
        · exact List.mem_cons_self _ _
        · exact List.mem_cons_of_mem _ (ih x h2)

theorem filterMiddle_subset :
    ∀ (l : List Str), ∀ x ∈ filterMiddle l, x ∈ l := by
  intro l
  cases l with
  | nil => intro x hx; cases hx
  | cons a t =>
    intro x hx
    unfold filterMiddle at hx
    cases t with
    | nil => exact hx
    | cons b t2 =>
      rcases List.mem_cons.mp hx with rfl | h2
      · exact List.mem_cons_self _ _
      · exact List.mem_cons_of_mem _ (filterMiddleTail_subset _ x h2)

theorem joinPaths_mem {b r : ParseResult} {netloc : Str} {c : Char}
    (h : c ∈ joinPaths b r netloc) :
    c ∈ b.path ∨ c ∈ r.scheme ∨ c ∈ netloc ∨ c ∈ r.path ∨ c ∈ r.params ∨
    c ∈ r.query ∨ c ∈ r.fragment ∨
    c = ':' ∨ c = '/' ∨ c = '?' ∨ c = '#' ∨ c = ';' := by
  unfold joinPaths at h
  dsimp only at h
  generalize hsg : (if List.take 1 r.path = ['/'] then pySplit '/' r.path
      else filterMiddle
        ((if (pySplit '/' b.path).getLastD [] ≠ [] then (pySplit '/' b.path).dropLast
          else pySplit '/' b.path) ++ pySplit '/' r.path)) = segs at h
  generalize hrv : (if segs.getLastD [] = str ".." ∨ segs.getLastD [] = str "." then
      resolveSegments segs ++ [[]] else resolveSegments segs) = resolved at h
  have hsegmem : ∀ seg ∈ segs, ∀ x ∈ seg, x ∈ b.path ∨ x ∈ r.path := by
    intro seg hseg x hx
    rw [← hsg] at hseg
    split at hseg
    · exact Or.inr (pySplit_mem hseg x hx)
    · have h5 := filterMiddle_subset _ seg hseg
      rcases List.mem_append.mp h5 with h6 | h6
      · split at h6
        · have h7 := List.dropLast_subset _ h6
          exact Or.inl (pySplit_mem h7 x hx)
        · exact Or.inl (pySplit_mem h6 x hx)
      · exact Or.inr (pySplit_mem h6 x hx)
  have hrvmem : ∀ seg ∈ resolved, ∀ x ∈ seg, x ∈ b.path ∨ x ∈ r.path := by
    intro seg hseg x hx
    rw [← hrv] at hseg
    have hseg2 : seg ∈ resolveSegments segs ∨ seg = [] := by
      split at hseg
      · rcases List.mem_append.mp hseg with h3 | h3
        · exact Or.inl h3
        · rw [List.mem_singleton] at h3; exact Or.inr h3
      · exact Or.inl hseg
    rcases hseg2 with h3 | rfl
    · exact hsegmem seg (mem_resolveSegments h3) x hx
    · cases hx
  rcases urlunparse_mem h with h2 | h2 | h2 | h2 | h2 | h2 | h2 | h2 | h2 | h2 | h2
  · tauto
  · tauto
  · split at h2
    · rw [List.mem_singleton] at h2; tauto
    · rcases pyJoin_mem h2 with rfl | ⟨seg, hseg, hcseg⟩
      · tauto
      · rcases hrvmem seg hseg c hcseg with h3 | h3 <;> tauto
  all_goals tauto

theorem parse_components_bracket_free {ds u : Str} {p : ParseResult}
    (h : urlparseE ds u = .ok p) (hd1 : '[' ∉ ds) (hd2 : ']' ∉ ds)
    (hu1 : '[' ∉ u) (hu2 : ']' ∉ u) :
    ('[' ∉ p.scheme ∧ ']' ∉ p.scheme) ∧ ('[' ∉ p.netloc ∧ ']' ∉ p.netloc) ∧
    ('[' ∉ p.path ∧ ']' ∉ p.path) ∧ ('[' ∉ p.params ∧ ']' ∉ p.params) ∧
    ('[' ∉ p.query ∧ ']' ∉ p.query) ∧ ('[' ∉ p.fragment ∧ ']' ∉ p.fragment) := by
  obtain ⟨m1, m2, m3, m4, m5, m6⟩ := urlparseE_mem h
  refine ⟨⟨fun hc => ?_, fun hc => ?_⟩, ⟨fun hc => hu1 (m2 _ hc), fun hc => hu2 (m2 _ hc)⟩,
    ⟨fun hc => hu1 (m3 _ hc), fun hc => hu2 (m3 _ hc)⟩,
    ⟨fun hc => hu1 (m4 _ hc), fun hc => hu2 (m4 _ hc)⟩,
    ⟨fun hc => hu1 (m5 _ hc), fun hc => hu2 (m5 _ hc)⟩,
    ⟨fun hc => hu1 (m6 _ hc), fun hc => hu2 (m6 _ hc)⟩⟩
  · rcases m1 _ hc with h2 | h2 | h2
    · exact hd1 h2
    · exact hu1 h2
    · exact absurd h2.1 (by decide)
  · rcases m1 _ hc with h2 | h2 | h2
    · exact hd2 h2
    · exact hu2 h2
    · exact absurd h2.1 (by decide)

theorem urljoinE_ok_bracket_free {base url : Str}
    (hb1 : '[' ∉ base) (hb2 : ']' ∉ base) (hu1 : '[' ∉ url) (hu2 : ']' ∉ url) :
    ∃ j, urljoinE base url = .ok j ∧ '[' ∉ j ∧ ']' ∉ j := by
  unfold urljoinE
  by_cases hbe : base = []
  · rw [if_pos hbe]
    exact ⟨url, rfl, hu1, hu2⟩
  rw [if_neg hbe]
  by_cases hue : url = []
  · rw [if_pos hue]
    exact ⟨base, rfl, hb1, hb2⟩
  rw [if_neg hue]
  obtain ⟨b, hbp⟩ := urlparseE_ok [] base
    (fun h => hb1 (mem_sanitizeUrl h)) (fun h => hb2 (mem_sanitizeUrl h))
  obtain ⟨⟨bs1, bs2⟩, ⟨bn1, bn2⟩, ⟨bp1, bp2⟩, ⟨bm1, bm2⟩, ⟨bq1, bq2⟩, ⟨bf1, bf2⟩⟩ :=
    parse_components_bracket_free hbp (List.not_mem_nil _) (List.not_mem_nil _) hb1 hb2
  obtain ⟨r, hrp⟩ := urlparseE_ok b.scheme url
    (fun h => hu1 (mem_sanitizeUrl h)) (fun h => hu2 (mem_sanitizeUrl h))
  obtain ⟨⟨rs1, rs2⟩, ⟨rn1, rn2⟩, ⟨rp1, rp2⟩, ⟨rm1, rm2⟩, ⟨rq1, rq2⟩, ⟨rf1, rf2⟩⟩ :=
    parse_components_bracket_free hrp bs1 bs2 hu1 hu2
  rw [hbp]
  dsimp only
  rw [hrp]
  dsimp only
  split
  · exact ⟨url, rfl, hu1, hu2⟩
  split
  · refine ⟨_, rfl, fun hc => ?_, fun hc => ?_⟩
    · rcases urlunparse_mem hc with h|h|h|h|h|h|h|h|h|h|h <;>
        first
        | exact rs1 h | exact rn1 h | exact rp1 h | exact rm1 h | exact rq1 h
        | exact rf1 h | exact absurd h (by decide)
    · rcases urlunparse_mem hc with h|h|h|h|h|h|h|h|h|h|h <;>
        first
        | exact rs2 h | exact rn2 h | exact rp2 h | exact rm2 h | exact rq2 h
        | exact rf2 h | exact absurd h (by decide)
  split
  · refine ⟨_, rfl, fun hc => ?_, fun hc => ?_⟩
    · rcases urlunparse_mem hc with h|h|h|h|h|h|h|h|h|h|h <;>
        first
        | exact rs1 h | exact bp1 h | exact bm1 h | exact rf1 h
        | exact absurd h (by decide)
        | (split at h
           <;> first | exact bn1 h | exact rn1 h | exact bq1 h | exact rq1 h)
    · rcases urlunparse_mem hc with h|h|h|h|h|h|h|h|h|h|h <;>
        first
        | exact rs2 h | exact bp2 h | exact bm2 h | exact rf2 h
        | exact absurd h (by decide)
        | (split at h
           <;> first | exact bn2 h | exact rn2 h | exact bq2 h | exact rq2 h)
  · refine ⟨_, rfl, fun hc => ?_, fun hc => ?_⟩
    · rcases joinPaths_mem hc with h|h|h|h|h|h|h|h|h|h|h|h <;>
        first
        | exact bp1 h | exact rs1 h | exact rp1 h | exact rm1 h | exact rq1 h
        | exact rf1 h | exact absurd h (by decide)
        | (split at h <;> first | exact bn1 h | exact rn1 h)
    · rcases joinPaths_mem hc with h|h|h|h|h|h|h|h|h|h|h|h <;>
        first
        | exact bp2 h | exact rs2 h | exact rp2 h | exact rm2 h | exact rq2 h
        | exact rf2 h | exact absurd h (by decide)
        | (split at h <;> first | exact bn2 h | exact rn2 h)

theorem urldefragE_ok_bracket_free {u : Str} (h1 : '[' ∉ u) (h2 : ']' ∉ u) :
    ∃ d, urldefragE u = .ok d ∧ '[' ∉ d ∧ ']' ∉ d := by
  unfold urldefragE
  by_cases hh : '#' ∈ u
  · rw [if_pos hh]
    obtain ⟨p, hp⟩ := urlparseE_ok [] u
      (fun h => h1 (mem_sanitizeUrl h)) (fun h => h2 (mem_sanitizeUrl h))
    obtain ⟨⟨s1, s2⟩, ⟨n1, n2⟩, ⟨p1, p2⟩, ⟨m1, m2⟩, ⟨q1, q2⟩, _⟩ :=
      parse_components_bracket_free hp (List.not_mem_nil _) (List.not_mem_nil _) h1 h2
    rw [hp]
    dsimp only
    refine ⟨_, rfl, fun hc => ?_, fun hc => ?_⟩
    · rcases urlunparse_mem hc with h|h|h|h|h|h|h|h|h|h|h <;>
        first
        | exact s1 h | exact n1 h | exact p1 h | exact m1 h | exact q1 h
        | exact List.not_mem_nil _ h | exact absurd h (by decide)
    · rcases urlunparse_mem hc with h|h|h|h|h|h|h|h|h|h|h <;>
        first
        | exact s2 h | exact n2 h | exact p2 h | exact m2 h | exact q2 h
        | exact List.not_mem_nil _ h | exact absurd h (by decide)
  · rw [if_neg hh]
    exact ⟨u, rfl, h1, h2⟩

/-- C8 (corrected): `normalize_url` is not total — the URL parser can raise
`ValueError` and `normalize_url` catches nothing, as
`normalize_url_raises_counterexample` shows on a mismatched bracket — but on
inputs that are free of square brackets and consist only of ASCII
characters it always returns a string.  The ASCII and bracket-free
hypotheses delimit exactly the fragment on which the two parser checks
modelled as no-ops (see the file header) can never raise in CPython:
`_checknetloc` returns immediately for an all-ASCII netloc and
`_check_bracketed_host` needs a bracket pair.  Within that fragment the
model carries every error path of the real parser, so the totality
transfers; outside it the real parser has further `ValueError`s (e.g. the
NFKC netloc check on `http://℀`) that this model does not exhibit, and no
totality is claimed. -/
theorem normalize_url_total_on_ascii_bracket_free (u b : Str)
    (_hua : ∀ c ∈ u, c.toNat ≤ 127) (_hba : ∀ c ∈ b, c.toNat ≤ 127)
    (h1 : '[' ∉ u) (h2 : ']' ∉ u) (h3 : '[' ∉ b) (h4 : ']' ∉ b) :
    ∃ r, normalize_url u b = .ok r := by
  obtain ⟨u1, hu1, hb1, hb2⟩ :
      ∃ u1, resolveBase u b = .ok u1 ∧ '[' ∉ u1 ∧ ']' ∉ u1 := by
    unfold resolveBase
    split
    · exact urljoinE_ok_bracket_free h3 h4 h1 h2
    · exact ⟨u, rfl, h1, h2⟩
  obtain ⟨u2, hd, hc1, hc2⟩ := urldefragE_ok_bracket_free hb1 hb2
  obtain ⟨p, hp⟩ := urlparseE_ok [] u2
    (fun h => hc1 (mem_sanitizeUrl h)) (fun h => hc2 (mem_sanitizeUrl h))
  unfold normalize_url
  rw [hu1]
  dsimp only
  rw [hd]
  dsimp only
  rw [hp]
  dsimp only
  split
  · exact ⟨_, rfl⟩
  · exact ⟨_, rfl⟩

/-- Concrete instantiation of `normalize_url_total_on_ascii_bracket_free` at
an ASCII, bracket-free URL with an empty base. -/
theorem normalize_url_total_on_ascii_bracket_free_witness :
    ∃ r, normalize_url (str "http://a.com/x") [] = .ok r :=
  normalize_url_total_on_ascii_bracket_free (str "http://a.com/x") []
    (by decide) (by decide) (by decide) (by decide) (by decide) (by decide)

theorem splitFragmentQuery_no_hash (s n url : Str) :
    '#' ∉ (splitFragmentQuery s n url).path ∧
    '#' ∉ (splitFragmentQuery s n url).query := by
  unfold splitFragmentQuery
  constructor
  · dsimp only
    split
    · split
      · intro hc
        have h1 := (List.takeWhile_sublist (fun c => c ≠ '?')).subset hc
        have h2 := List.mem_takeWhile_imp h1
        simp at h2
      · intro hc
        have h2 := List.mem_takeWhile_imp hc
        simp at h2
    · rename_i hh
      split
      · intro hc
        exact hh ((List.takeWhile_sublist _).subset hc)
      · exact hh
  · dsimp only
    split
    · split
      · intro hc
        have h1 := (List.tail_sublist _).subset hc
        have h2 := (List.dropWhile_sublist _).subset h1
        have h3 := List.mem_takeWhile_imp h2
        simp at h3
      · intro hc
        simp at hc
    · rename_i hh
      split
      · intro hc
        have h1 := (List.tail_sublist _).subset hc
        exact hh ((List.dropWhile_sublist _).subset h1)
      · intro hc
        simp at hc

theorem splitSchemePart_scheme_no_hash (ds url : Str) (hds : '#' ∉ ds) :
    '#' ∉ (splitSchemePart ds url).1 := by
  unfold splitSchemePart
  split
  · exact hds
  · dsimp only
    split
    · rename_i hcond
      intro hc
      have h2 := mem_map_asciiLower hc (by decide)
      have h3 := hcond.2.2
      rw [List.all_eq_true] at h3
      have h4 := h3 _ h2
      exact absurd h4 (by decide)
    · exact hds

theorem urlsplitCore_no_hash {ds url : Str} {r : SplitResult}
    (h : urlsplitCore ds url = .ok r) (hds : '#' ∉ ds) :
    '#' ∉ r.scheme ∧ '#' ∉ r.netloc ∧ '#' ∉ r.path ∧ '#' ∉ r.query := by
  have hs0 := splitSchemePart_scheme_no_hash ds url hds
  unfold urlsplitCore at h
  split at h
  split at h
  · rename_i rest2 heq
    have hsch : '#' ∉ (splitSchemePart ds url).1 := hs0
    rw [heq] at hsch
    dsimp only at h hsch
    split at h
    · cases h
    · cases h
      have hq := splitFragmentQuery_no_hash
        (splitSchemePart ds url).1
        (rest2.takeWhile (fun c => ¬ isNetlocStop c))
        (rest2.dropWhile (fun c => ¬ isNetlocStop c))
      rw [heq] at hq
      dsimp only at hq
      refine ⟨hsch, ?_, hq.1, hq.2⟩
      intro hc
      have h2 := List.mem_takeWhile_imp hc
      simp [isNetlocStop] at h2
  · rename_i heq u22 hno
    cases h
    have hq := splitFragmentQuery_no_hash (splitSchemePart ds url).1 []
      (splitSchemePart ds url).2
    rw [heq] at hq
    have hsch : '#' ∉ (splitSchemePart ds url).1 := hs0
    rw [heq] at hsch
    exact ⟨hsch, List.not_mem_nil _, hq.1, hq.2⟩

theorem urlparseE_no_hash {u : Str} {p : ParseResult}
    (h : urlparseE [] u = .ok p) :
    '#' ∉ p.scheme ∧ '#' ∉ p.netloc ∧ '#' ∉ p.path ∧ '#' ∉ p.params ∧
    '#' ∉ p.query := by
  unfold urlparseE urlsplitE at h
  split at h
  · cases h
  · rename_i r hr
    cases h
    obtain ⟨n1, n2, n3, n4⟩ := urlsplitCore_no_hash hr (by decide)
    unfold paramsStep
    split
    · dsimp only
      have hp := splitparams_mem r.path
      exact ⟨n1, n2, fun hc => n3 (hp.1 _ hc), fun hc => n3 (hp.2 _ hc), n4⟩
    · refine ⟨n1, n2, n3, ?_, n4⟩
      intro hc
      exact absurd hc (List.not_mem_nil _)

theorem urlunsplit_no_hash {scheme netloc url query : Str}
    (h1 : '#' ∉ scheme) (h2 : '#' ∉ netloc) (h3 : '#' ∉ url)
    (h4 : '#' ∉ query) :
    '#' ∉ urlunsplit scheme netloc url query [] := by
  unfold urlunsplit
  dsimp only
  rw [if_neg (by simp : ¬(([] : Str) ≠ []))]
  intro hc
  rcases mem_ite_append (p := query ≠ []) hc with h5 | h5 | h5
  · rcases mem_ite_pre (p := scheme ≠ []) h5 with h6 | h6 | h6
    · exact h1 h6
    · exact absurd h6 (by decide)
    · split at h6
      · rcases List.mem_cons.mp h6 with h7 | h7
        · exact absurd h7 (by decide)
        rcases List.mem_cons.mp h7 with h8 | h8
        · exact absurd h8 (by decide)
        rcases List.mem_append.mp h8 with h9 | h9
        · exact h2 h9
        · split at h9
          · rcases List.mem_cons.mp h9 with h10 | h10
            · exact absurd h10 (by decide)
            · exact h3 h10
          · exact h3 h9
      · exact h3 h6
  · exact absurd h5 (by decide)
  · exact h4 h5

theorem urlunparse_no_hash {scheme netloc url params query : Str}
    (h1 : '#' ∉ scheme) (h2 : '#' ∉ netloc) (h3 : '#' ∉ url)
    (hp : '#' ∉ params) (h4 : '#' ∉ query) :
    '#' ∉ urlunparse scheme netloc url params query [] := by
  unfold urlunparse
  dsimp only
  apply urlunsplit_no_hash h1 h2 _ h4
  intro hc
  rcases mem_ite_append (p := params ≠ []) hc with h5 | h5 | h5
  · exact h3 h5
  · exact absurd h5 (by decide)
  · exact hp h5

theorem urldefragE_no_hash {u d : Str} (h : urldefragE u = .ok d) :
    '#' ∉ d := by
  unfold urldefragE at h
  split at h
  · split at h
    · cases h
    · rename_i p hp
      cases h
      obtain ⟨n1, n2, n3, n4, n5⟩ := urlparseE_no_hash hp
      exact urlunparse_no_hash n1 n2 n3 n4 n5
  · rename_i hh
    cases h
    exact hh

theorem dropWhile_c0_replicate_slash (k : Nat) :
    List.dropWhile isC0OrSpace (List.replicate k '/') = List.replicate k '/' := by
  cases k with
  | zero => rfl
  | succ n =>
    rw [List.replicate_succ, List.dropWhile_cons]
    have h : isC0OrSpace '/' = false := by decide
    rw [h]
    simp

theorem filter_unsafe_replicate_slash (k : Nat) :
    List.filter (fun c => ¬ isUnsafeByte c) (List.replicate k '/') =
      List.replicate k '/' := by
  rw [List.filter_replicate, if_pos (by decide)]

theorem sanitizeUrl_append_slashes (x : Str) (k : Nat) :
    sanitizeUrl (x ++ List.replicate k '/') =
      sanitizeUrl x ++ List.replicate k '/' := by
  unfold sanitizeUrl
  rw [List.dropWhile_append]
  split
  · rename_i hemp
    rw [List.isEmpty_iff] at hemp
    rw [hemp, dropWhile_c0_replicate_slash, filter_unsafe_replicate_slash]
    simp
  · rw [List.filter_append, filter_unsafe_replicate_slash]

theorem takeWhile_append_stop {p : Char → Bool} {a b : Str}
    (hb : b.takeWhile p = []) : (a ++ b).takeWhile p = a.takeWhile p := by
  rw [List.takeWhile_append]
  split
  · rename_i hlen
    rw [hb, List.append_nil]
    exact ((List.takeWhile_sublist _).eq_of_length hlen).symm
  · rfl

theorem dropWhile_append_ne {p : Char → Bool} {a : Str} (b : Str)
    (ha : a.dropWhile p ≠ []) : (a ++ b).dropWhile p = a.dropWhile p ++ b := by
  rw [List.dropWhile_append, if_neg (fun hh => ha (List.isEmpty_iff.mp hh))]

theorem splitSchemePart_append_slashes (ds s : Str) (k : Nat) :
    (splitSchemePart ds (s ++ List.replicate k '/')).1 =
      (splitSchemePart ds s).1 ∧
    (splitSchemePart ds (s ++ List.replicate k '/')).2 =
      (splitSchemePart ds s).2 ++ List.replicate k '/' := by
  have hrep : (List.replicate k '/').dropWhile (fun c => c ≠ ':') = [] := by
    rw [List.dropWhile_eq_nil_iff]
    intro x hx
    rw [List.mem_replicate] at hx
    simp [hx.2]
  unfold splitSchemePart
  dsimp only
  cases hd : s.dropWhile (fun c => c ≠ ':') with
  | nil =>
    have hd2 : (s ++ List.replicate k '/').dropWhile (fun c => c ≠ ':') = [] := by
      rw [List.dropWhile_append, if_pos (by rw [hd]; rfl)]
      exact hrep
    rw [hd2]
    exact ⟨rfl, rfl⟩
  | cons d rest =>
    have hne : s.dropWhile (fun c => c ≠ ':') ≠ [] := by
      rw [hd]; exact List.cons_ne_nil _ _
    have hd2 : (s ++ List.replicate k '/').dropWhile (fun c => c ≠ ':') =
        d :: (rest ++ List.replicate k '/') := by
      rw [dropWhile_append_ne _ hne, hd]
      rfl
    have hpre : (s ++ List.replicate k '/').takeWhile (fun c => c ≠ ':') =
        s.takeWhile (fun c => c ≠ ':') := by
      rw [List.takeWhile_append, if_neg]
      intro hlen
      apply hne
      have heq := (List.takeWhile_sublist _).eq_of_length hlen
      have hsplit := List.takeWhile_append_dropWhile
        (fun c => decide (c ≠ ':')) s
      rw [heq] at hsplit
      have : s ++ s.dropWhile (fun c => c ≠ ':') = s ++ [] := by
        rw [List.append_nil]; exact hsplit
      exact List.append_cancel_left this
    rw [hd2, hpre]
    dsimp only
    split
    · exact ⟨rfl, rfl⟩
    · exact ⟨rfl, rfl⟩

theorem takeWhile_netlocStop_replicate_slash (k : Nat) :
    (List.replicate k '/').takeWhile (fun c => ¬ isNetlocStop c) = [] := by
  cases k with
  | zero => rfl
  | succ n =>
    rw [List.replicate_succ, List.takeWhile_cons]
    have h : (¬ isNetlocStop '/' : Bool) = false := by decide
    rw [h]
    simp

theorem urlsplitCore_ok_append {ds s : Str} {k : Nat} {r : SplitResult}
    (h : urlsplitCore ds (s ++ List.replicate k '/') = .ok r) :
    ∃ q, urlsplitCore ds s = .ok q := by
  obtain ⟨he1, he2⟩ := splitSchemePart_append_slashes ds s k
  unfold urlsplitCore
  split
  split
  · rename_i rest3 heq3
    rw [if_neg]
    · exact ⟨_, rfl⟩
    · have hu2 : (splitSchemePart ds (s ++ List.replicate k '/')).2 =
          '/' :: '/' :: (rest3 ++ List.replicate k '/') := by
        rw [he2, heq3]
        rfl
      unfold urlsplitCore at h
      split at h
      split at h
      · rename_i rest2 heq2
        rw [heq2] at hu2
        dsimp only at hu2
        have hrest : rest2 = rest3 ++ List.replicate k '/' := by
          simpa using hu2
        dsimp only at h
        split at h
        · cases h
        · rename_i hcond
          subst hrest
          rw [takeWhile_append_stop (takeWhile_netlocStop_replicate_slash k)]
            at hcond
          exact hcond
      · rename_i heq2 u22 hno
        rw [heq2] at hu2
        dsimp only at hu2
        exact absurd hu2 (by exact fun hh => hno _ hh)
  · exact ⟨_, rfl⟩

theorem urlparseE_ok_rstrip {u : Str} {p : ParseResult}
    (h : urlparseE [] u = .ok p) :
    ∃ q, urlparseE [] (pyRstripSlash u) = .ok q := by
  obtain ⟨k, hk⟩ := rstrip_append_replicate u
  unfold urlparseE urlsplitE at h ⊢
  rw [hk, sanitizeUrl_append_slashes] at h
  split at h
  · cases h
  · rename_i r hr
    obtain ⟨q, hq⟩ := urlsplitCore_ok_append hr
    rw [hq]
    exact ⟨_, rfl⟩

theorem resolveBase_empty (u : Str) : resolveBase u [] = .ok u := by
  unfold resolveBase
  rw [if_neg (by simp : ¬(([] : Str) ≠ []))]

theorem urldefragE_of_no_hash {u : Str} (h : '#' ∉ u) : urldefragE u = .ok u := by
  unfold urldefragE
  rw [if_neg h]

/-- C9 (counterexample): with a nonempty base, `normalize` is not idempotent —
re-resolving the already-normalized URL against a relative base prepends the
base path again: `normalize('h', 'x/y/') = 'x/y/h'` but
`normalize('x/y/h', 'x/y/') = 'x/y/x/y/h'`. -/
theorem normalize_url_idempotence_counterexample :
    normalize_url (str "h") (str "x/y/") = .ok (str "x/y/h") ∧
    normalize_url (str "x/y/h") (str "x/y/") = .ok (str "x/y/x/y/h") ∧
    str "x/y/x/y/h" ≠ str "x/y/h" := by
  refine ⟨by decide, by decide, by decide⟩

/-- C9 (amended): with an empty base, `normalize_url` is idempotent — applying
it a second time to a successful output changes nothing, because the output
contains no fragment marker and trailing-slash stripping is idempotent. -/
theorem normalize_url_idempotent_empty_base (u N : Str)
    (h : normalize_url u [] = .ok N) : normalize_url N [] = .ok N := by
  unfold normalize_url at h
  rw [resolveBase_empty] at h
  dsimp only at h
  cases hdf : urldefragE u with
  | error e =>
    rw [hdf] at h
    dsimp only at h
    exact Except.noConfusion h
  | ok u2 =>
    rw [hdf] at h
    dsimp only at h
    have hnh2 : '#' ∉ u2 := urldefragE_no_hash hdf
    cases hp : urlparseE [] u2 with
    | error e =>
      rw [hp] at h
      dsimp only at h
      exact Except.noConfusion h
    | ok parsed =>
      rw [hp] at h
      dsimp only at h
      by_cases hsc : stripCond parsed
      · rw [if_pos hsc] at h
        injection h with hN
        subst hN
        have hh : '#' ∉ pyRstripSlash u2 := fun hc => hnh2 (mem_pyRstripSlash hc)
        obtain ⟨q, hq⟩ := urlparseE_ok_rstrip hp
        unfold normalize_url
        rw [resolveBase_empty]
        dsimp only
        rw [urldefragE_of_no_hash hh]
        dsimp only
        rw [hq]
        dsimp only
        by_cases h2 : stripCond q
        · rw [if_pos h2, pyRstripSlash_idem]
        · rw [if_neg h2]
      · rw [if_neg hsc] at h
        injection h with hN
        subst hN
        unfold normalize_url
        rw [resolveBase_empty]
        dsimp only
        rw [urldefragE_of_no_hash hnh2]
        dsimp only
        rw [hp]
        dsimp only
        rw [if_neg hsc]

/-- Concrete instantiation of `normalize_url_idempotent_empty_base`: a second
pass over the normalization of `"http://a.com/x/"` (with empty base) returns
the same string. -/
theorem normalize_url_idempotent_empty_base_witness :
    normalize_url (str "http://a.com/x") [] = .ok (str "http://a.com/x") :=
  normalize_url_idempotent_empty_base (str "http://a.com/x/")
    (str "http://a.com/x") (by decide)
